import Mathlib

/-!
Verification of the IEC 61131-3 type-schema library (jisotalo/iec-61131-3).

The development shallowly embeds `src/iec-type-handler.ts` (schema nodes and
their byte codecs) and the data-type-unit resolver of `src/iec-types.ts`.
Node.js `Buffer`s are lists of byte values, JavaScript numbers that the
claims exercise are integers (`Int`), JavaScript `undefined` and thrown
errors are modeled with `Option`, and IEEE-754 values are carried as their
bit patterns (the float codec is byte-exact, so a JavaScript number of
float kind is represented by the 32/64-bit pattern `writeFloatLE` /
`writeDoubleLE` would store for it).
-/

/-! ## Byte-buffer primitives (Node.js `Buffer` as `List Nat`) -/

/-- Little-endian byte list of the low `w` bytes of `m`, as the byte-wise
stores of `buf[offset++] = value; value >>> 8; ...` produce them. -/
def natToBytesLE : Nat → Nat → List Nat
  | 0, _ => []
  | w + 1, m => m % 256 :: natToBytesLE w (m / 256)

/-- Little-endian read of a whole byte list (each byte taken mod 256,
matching the fact that physical buffer cells hold 0..255). -/
def bytesToNatLE : List Nat → Nat
  | [] => 0
  | b :: rest => b % 256 + 256 * bytesToNatLE rest

/-- Model of `src.copy(tgt, pos)`: overwrite `tgt` from index `pos` with as
much of `src` as fits; the result always has `tgt`'s length. -/
def copyInto (tgt : List Nat) (pos : Nat) (src : List Nat) : List Nat :=
  tgt.take pos ++ src.take (tgt.length - pos) ++
    tgt.drop (pos + min src.length (tgt.length - pos))

/-- Model of `buf.slice(start, stop)` for `start ≤ stop` (Node's slice clamps
to the buffer, never throws). -/
def sliceJS (buf : List Nat) (start stop : Nat) : List Nat :=
  (buf.drop start).take (stop - start)

/-- A zero-initialized buffer, `Buffer.alloc(n)`. -/
def zerosBuf (n : Nat) : List Nat :=
  List.replicate n 0

/-- Model of `for (let i = 0; i < n; i++)` over monadic state: `jsLoop step k i st`
runs `step` at indices `i, i+1, ...` for `k` further iterations. An erroring
body aborts the loop (a thrown exception). -/
def jsLoop {σ : Type} (step : Nat → σ → Option σ) : Nat → Nat → σ → Option σ
  | 0, _, st => some st
  | k + 1, i, st => do jsLoop step k (i + 1) (← step i st)

/-! ## Schema nodes

One constructor per concrete class of `iec-type-handler.ts`. `children` of
STRUCT/UNION is an association list in declaration order (JavaScript object
keys enumerate in insertion order); a resolved schema always has its
`children` object present. -/

mutual
inductive IecType : Type where
  | BOOL
  | USINT
  | BYTE
  | SINT
  | UINT
  | WORD
  | INT
  | DINT
  | UDINT
  | DWORD
  | TIME
  | TOD
  | TIME_OF_DAY
  | DT
  | DATE_AND_TIME
  | DATE
  | REAL
  | LREAL
  | ULINT
  | LWORD
  | LINT
  | STRING (length : Nat)
  | WSTRING (length : Nat)
  | STRUCT (children : Children)
  | UNION (children : Children)
  | ARRAY (dataType : IecType) (dimensions : List Nat)
  | ENUM (definition : List (String × Int)) (dataType : IecType)
inductive Children : Type where
  | nil
  | cons (name : String) (type : IecType) (rest : Children)
end

/-- Children as a plain list, for spec-side statements. -/
def Children.toList : Children → List (String × IecType)
  | .nil => []
  | .cons k t rest => (k, t) :: rest.toList

/-- Association list to `Children`, used by the resolver. -/
def Children.ofList : List (String × IecType) → Children
  | [] => .nil
  | (k, t) :: rest => .cons k t (Children.ofList rest)

/-- ARRAY `totalSize`: `dimensions.reduce((total, size) => total * size, 1)`. -/
def totalSize (dims : List Nat) : Nat :=
  dims.foldl (· * ·) 1

/-! `byteLength`, fixed at construction time:
STRUCT sums its children (`this.byteLength += child.byteLength`), UNION keeps
the largest child (`if (child.byteLength > this.byteLength) ...`), ARRAY is
`totalSize * dataType.byteLength`, ENUM is its backing type's length, STRING
is `length + 1` and WSTRING `length * 2 + 2`. -/

mutual
def byteLength : IecType → Nat
  | .BOOL => 1
  | .USINT => 1
  | .BYTE => 1
  | .SINT => 1
  | .UINT => 2
  | .WORD => 2
  | .INT => 2
  | .DINT => 4
  | .UDINT => 4
  | .DWORD => 4
  | .TIME => 4
  | .TOD => 4
  | .TIME_OF_DAY => 4
  | .DT => 4
  | .DATE_AND_TIME => 4
  | .DATE => 4
  | .REAL => 4
  | .LREAL => 8
  | .ULINT => 8
  | .LWORD => 8
  | .LINT => 8
  | .STRING length => length + 1
  | .WSTRING length => length * 2 + 2
  | .STRUCT cs => structLenAcc cs 0
  | .UNION cs => unionLenAcc cs 0
  | .ARRAY dt dims => totalSize dims * byteLength dt
  | .ENUM _ dt => byteLength dt
def structLenAcc : Children → Nat → Nat
  | .nil, acc => acc
  | .cons _ t rest, acc => structLenAcc rest (acc + byteLength t)
def unionLenAcc : Children → Nat → Nat
  | .nil, acc => acc
  | .cons _ t rest, acc =>
      unionLenAcc rest (if byteLength t > acc then byteLength t else acc)
end

/-! ## Runtime values

JavaScript values that flow through the codecs. `undef` is `undefined`;
`num` is an integral JavaScript number; `real32`/`real64` carry the IEEE bit
pattern of a float-valued number; `bignum` is a `BigInt`; `enumEntry` is the
`{name, value}` object `EnumEntry`. -/

inductive IecValue : Type where
  | undef
  | bool (b : Bool)
  | num (n : Int)
  | real32 (bits : Nat)
  | real64 (bits : Nat)
  | bignum (n : Int)
  | str (s : String)
  | obj (fields : List (String × IecValue))
  | arr (elems : List IecValue)
  | enumEntry (name : Option String) (value : IecValue)

/-- JavaScript truthiness of the modeled values (`!data` guards). A float is
falsy exactly when it is ±0 or NaN. -/
def truthy : IecValue → Bool
  | .undef => false
  | .bool b => b
  | .num n => n ≠ 0
  | .real32 bits =>
      ¬((bits % 2 ^ 32) / 2 ^ 23 % 2 ^ 8 = 0 ∧ bits % 2 ^ 23 = 0) ∧
      ¬((bits % 2 ^ 32) / 2 ^ 23 % 2 ^ 8 = 255 ∧ bits % 2 ^ 23 ≠ 0)
  | .real64 bits =>
      ¬((bits % 2 ^ 64) / 2 ^ 52 % 2 ^ 11 % 2 ^ 11 = 0 ∧ bits % 2 ^ 52 = 0) ∧
      ¬((bits % 2 ^ 64) / 2 ^ 52 % 2 ^ 11 = 2047 ∧ bits % 2 ^ 52 ≠ 0)
  | .bignum n => n ≠ 0
  | .str s => s ≠ ""
  | .obj _ => true
  | .arr _ => true
  | .enumEntry _ _ => true

/-- Property access `data[key]` on a truthy value: a missing key (or access
on a primitive) yields `undefined`. -/
def getFieldJS : IecValue → String → IecValue
  | .obj fields, k =>
      match fields.find? (fun f => f.1 == k) with
      | some f => f.2
      | none => .undef
  | .enumEntry name v, k =>
      if k == "value" then v
      else if k == "name" then
        match name with
        | some s => .str s
        | none => .undef
      else .undef
  | _, _ => (.undef)

/-- Index access `data[i]`: indexing `undefined` throws a `TypeError`
(`none`); indexing past an array's end, or indexing a non-array primitive,
yields `undefined`. -/
def indexJS : IecValue → Nat → Option IecValue
  | .undef, _ => none
  | .arr es, i => some (es.getD i .undef)
  | _, _ => some (.undef)

/-- Character-wise `toLowerCase()`; the identifiers this library compares are
ASCII, where this coincides with the JavaScript method. -/
def lowerStr (s : String) : String :=
  ⟨s.data.map Char.toLower⟩

/-- Source helper `trimPlcString`: keep characters up to (excluding) the
first `\0`. -/
def trimPlcString (s : String) : String :=
  ⟨s.data.takeWhile (fun c => c.toNat ≠ 0)⟩

/-- The external single-byte character codec (`iconv.encode(str, 'cp1252')`).
The spec treats the text codec as an opaque external service; it is modeled
as the identity on single-byte code points (with `?` substitution above),
which is exact on the inputs any claim exercises. -/
def cp1252Bytes (s : String) : List Nat :=
  s.data.map (fun c => if c.toNat < 256 then c.toNat else 63)

/-- The external single-byte decode (`iconv.decode(buf, 'cp1252')`),
modeled as the inverse identity map. -/
def cp1252Str (buf : List Nat) : String :=
  ⟨buf.map (fun b => Char.ofNat (b % 256))⟩

/-- The external two-byte codec (`iconv.encode(str, 'ucs2')`): each UTF-16
code unit as two little-endian bytes. -/
def ucs2Bytes : List Char → List Nat
  | [] => []
  | c :: rest => c.toNat % 256 :: c.toNat / 256 % 256 :: ucs2Bytes rest

/-- The external two-byte decode (`iconv.decode(buf, 'ucs2')`). -/
def ucs2Chars : List Nat → List Char
  | lo :: hi :: rest => Char.ofNat (lo % 256 + 256 * (hi % 256)) :: ucs2Chars rest
  | _ => []

/-- String coercion applied by `iconv.encode` (`"" + (str || "")`); the
claims only feed actual strings or `undefined` (which coerces to `""`) to
the string codecs, so other coercions are collapsed to `""`. -/
def jsStrOf : IecValue → String
  | .str s => s
  | _ => ""

/-- JavaScript `+value` (ToNumber) as Node's integer `write*` routines apply
it before their range check: an integral number stays itself, everything the
claims exercise besides that (objects, `undefined`, arrays, non-numeric
strings) becomes NaN, modeled as `none`. -/
def toNumberForWrite : IecValue → Option Int
  | .num n => some n
  | _ => none

/-- Node's `buf.writeIntLE`-family: `value = +value` then
`checkInt(value, min, max)` (NaN passes the check, since NaN comparisons are
false, and its byte stores produce zeros), then the little-endian byte
stores. An out-of-range number throws `ERR_OUT_OF_RANGE`. -/
def writeIntLE (w : Nat) (signed : Bool) (v : IecValue) : Option (List Nat) :=
  match toNumberForWrite v with
  | none => some (zerosBuf w)
  | some n =>
      let lo : Int := if signed then -(2 ^ (8 * w - 1)) else 0
      let hi : Int := if signed then 2 ^ (8 * w - 1) - 1 else 2 ^ (8 * w) - 1
      if n > hi ∨ n < lo then none
      else some (natToBytesLE w (n % (256 ^ w : Nat)).toNat)

/-- Node's `buf.readUIntLE`-family: reading past the end of the buffer
throws `ERR_OUT_OF_RANGE`. -/
def readUIntLE (w : Nat) (buf : List Nat) : Option Nat :=
  if buf.length < w then none else some (bytesToNatLE (buf.take w))

/-- Signed read: two's-complement interpretation of the unsigned value. -/
def readIntLE (w : Nat) (signed : Bool) (buf : List Nat) : Option Int :=
  (readUIntLE w buf).map fun (m : Nat) =>
    if signed ∧ 256 ^ w / 2 ≤ m then (m : Int) - ((256 ^ w : Nat) : Int) else (m : Int)

/-- Node's `buf.writeBigUInt64LE`/`writeBigInt64LE`: requires an actual
`BigInt` (mixing any other value with the BigInt mask arithmetic throws a
`TypeError`); an out-of-range `BigInt` throws `ERR_OUT_OF_RANGE`. -/
def writeBigLE (signed : Bool) (v : IecValue) : Option (List Nat) :=
  match v with
  | .bignum n =>
      let lo : Int := if signed then -(2 ^ 63) else 0
      let hi : Int := if signed then 2 ^ 63 - 1 else 2 ^ 64 - 1
      if n > hi ∨ n < lo then none
      else some (natToBytesLE 8 (n % (256 ^ 8 : Nat)).toNat)
  | _ => none

/-- Truthiness of `this.dimensions[arrayDimension + 1]`: a next dimension
exists and is nonzero. -/
def nextDimTruthy : List Nat → Bool
  | [] => false
  | d :: _ => d ≠ 0

/-- ARRAY `convertToBuffer`'s inner `parseArray(data, arrayDimension)`:
walk the current dimension; recurse while a truthy next dimension exists,
otherwise convert actual elements, copying each converted buffer at the
running position and advancing by its actual byte length. -/
def arrEncDim (enc : IecValue → Option (List Nat)) :
    List Nat → IecValue → List Nat × Nat → Option (List Nat × Nat)
  | [], _, st => some st
  | d :: rest, data, st =>
      jsLoop (fun i st' => do
          let x ← indexJS data i
          if nextDimTruthy rest then
            arrEncDim enc rest x st'
          else do
            let conv ← enc x
            pure (copyInto st'.1 st'.2 conv, st'.2 + conv.length)) d 0 st

/-- ARRAY `convertFromBuffer`'s inner `parseArray(arrayDimension)`: build
the nested result, advancing the shared position by the element type's
declared byte length at each leaf. -/
def arrDecDim (dec : List Nat → Option IecValue) (elemLen : Nat) :
    List Nat → List Nat → Nat → Option (List IecValue × Nat)
  | [], _, pos => some ([], pos)
  | d :: rest, buf, pos =>
      jsLoop (fun _i st => do
          if nextDimTruthy rest then
            let (sub, p) ← arrDecDim dec elemLen rest buf st.2
            pure (st.1 ++ [IecValue.arr sub], p)
          else do
            let v ← dec (sliceJS buf st.2 (st.2 + elemLen))
            pure (st.1 ++ [v], st.2 + elemLen)) d 0 ([], pos)

/-- ARRAY `getDefault`'s inner `parseArray(arrayDimension)`. -/
def arrDefaultDim (elemDefault : IecValue) : List Nat → List IecValue
  | [] => []
  | d :: rest =>
      (List.range d).map fun _ =>
        if nextDimTruthy rest then .arr (arrDefaultDim elemDefault rest)
        else elemDefault

/-- `ENUM.findEnumEntryByValue`: the first declared entry whose value is
strictly equal (`===`) to the given one. Strict equality of a decoded
backing value against the numeric entry values: only an integral number can
match (the claims use integer backing types, as `EnumDataType` requires). -/
def findEnumEntryByValue (defn : List (String × Int)) (value : IecValue) :
    Option IecValue :=
  (defn.find? fun e =>
      match value with
      | .num m => m == e.2
      | _ => false).map
    fun e => .enumEntry (some e.1) value

mutual
/-- `convertToBuffer` of each schema class, returning `none` where the
source throws. -/
def convertToBuffer : IecType → IecValue → Option (List Nat)
  | .BOOL, v => some [if truthy v then 1 else 0]
  | .USINT, v | .BYTE, v => writeIntLE 1 false v
  | .SINT, v => writeIntLE 1 true v
  | .UINT, v | .WORD, v => writeIntLE 2 false v
  | .INT, v => writeIntLE 2 true v
  | .DINT, v => writeIntLE 4 true v
  | .UDINT, v | .DWORD, v | .TIME, v | .TOD, v | .TIME_OF_DAY, v | .DT, v
  | .DATE_AND_TIME, v | .DATE, v => writeIntLE 4 false v
  | .REAL, v =>
      match v with
      | .real32 bits => some (natToBytesLE 4 bits)
      | _ => none
  | .LREAL, v =>
      match v with
      | .real64 bits => some (natToBytesLE 8 bits)
      | _ => none
  | .ULINT, v | .LWORD, v => writeBigLE false v
  | .LINT, v => writeBigLE true v
  | .STRING length, v =>
      some (copyInto (zerosBuf (length + 1)) 0 (cp1252Bytes (jsStrOf v)))
  | .WSTRING length, v =>
      some (copyInto (zerosBuf (length * 2 + 2)) 0 (ucs2Bytes (jsStrOf v).data))
  | .STRUCT cs, v =>
      if ¬truthy v then some []
      else structEnc cs v (zerosBuf (byteLength (.STRUCT cs))) 0
  | .UNION cs, v =>
      if ¬truthy v then some []
      else unionEnc cs v (zerosBuf (byteLength (.UNION cs)))
  | .ARRAY dt dims, v =>
      if ¬truthy v then some []
      else
        (arrEncDim (convertToBuffer dt) dims v
            (zerosBuf (byteLength (.ARRAY dt dims)), 0)).map Prod.fst
  | .ENUM defn dt, v =>
      if ¬truthy v then some []
      else
        match v with
        | .str s =>
            match defn.find? (fun e => lowerStr e.1 == lowerStr s) with
            | some e => convertToBuffer dt (.num e.2)
            | none => none
        | .num n => convertToBuffer dt (.num n)
        | .real32 _ | .real64 _ => convertToBuffer dt v
        | .obj _ | .arr _ | .enumEntry _ _ =>
            if truthy (getFieldJS v "value") then convertToBuffer dt v
            else if truthy (getFieldJS v "name") then
              match getFieldJS v "name" with
              | .str s =>
                  match defn.find? (fun e => lowerStr e.1 == lowerStr s) with
                  | some e => convertToBuffer dt (.num e.2)
                  | none => none
              | _ => none
            else none
        | _ => none
/-- STRUCT `convertToBuffer`'s child loop: convert each child at the running
position, advancing by the converted buffer's actual length. -/
def structEnc : Children → IecValue → List Nat → Nat → Option (List Nat)
  | .nil, _, buf, _ => some buf
  | .cons k t rest, data, buf, pos => do
      let conv ← convertToBuffer t (getFieldJS data k)
      structEnc rest data (copyInto buf pos conv) (pos + conv.length)
/-- UNION `convertToBuffer`'s child loop: skip children whose input is
strictly `undefined`; every other child is converted and copied at offset 0
(a later child overwrites an earlier one there). -/
def unionEnc : Children → IecValue → List Nat → Option (List Nat)
  | .nil, _, buf => some buf
  | .cons k t rest, data, buf =>
      match getFieldJS data k with
      | .undef => unionEnc rest data buf
      | v => do
          let conv ← convertToBuffer t v
          unionEnc rest data (copyInto buf 0 conv)
end

mutual
/-- `convertFromBuffer` of each schema class. -/
def convertFromBuffer : IecType → List Nat → Option IecValue
  | .BOOL, buf => (readUIntLE 1 buf).map fun m => .bool (m ≠ 0)
  | .USINT, buf | .BYTE, buf => (readIntLE 1 false buf).map .num
  | .SINT, buf => (readIntLE 1 true buf).map .num
  | .UINT, buf | .WORD, buf => (readIntLE 2 false buf).map .num
  | .INT, buf => (readIntLE 2 true buf).map .num
  | .DINT, buf => (readIntLE 4 true buf).map .num
  | .UDINT, buf | .DWORD, buf | .TIME, buf | .TOD, buf | .TIME_OF_DAY, buf
  | .DT, buf | .DATE_AND_TIME, buf | .DATE, buf => (readIntLE 4 false buf).map .num
  | .REAL, buf => (readUIntLE 4 buf).map .real32
  | .LREAL, buf => (readUIntLE 8 buf).map .real64
  | .ULINT, buf | .LWORD, buf => (readUIntLE 8 buf).map fun m => .bignum m
  | .LINT, buf =>
      (readUIntLE 8 buf).map fun (m : Nat) =>
        .bignum (if 256 ^ 8 / 2 ≤ m then (m : Int) - 256 ^ 8 else (m : Int))
  | .STRING _, buf => some (.str (trimPlcString (cp1252Str buf)))
  | .WSTRING _, buf => some (.str (trimPlcString ⟨ucs2Chars buf⟩))
  | .STRUCT cs, buf => (structDec cs buf 0).map .obj
  | .UNION cs, buf => (unionDec cs buf).map .obj
  | .ARRAY dt dims, buf =>
      (arrDecDim (convertFromBuffer dt) (byteLength dt) dims buf 0).map
        fun p => .arr p.1
  | .ENUM defn dt, buf =>
      (convertFromBuffer dt buf).map fun value =>
        match findEnumEntryByValue defn value with
        | some e => e
        | none => .enumEntry none value
/-- STRUCT `convertFromBuffer`: slice per-child regions by cumulative
declared offsets, in declared order. -/
def structDec : Children → List Nat → Nat → Option (List (String × IecValue))
  | .nil, _, _ => some []
  | .cons k t rest, buf, pos => do
      let v ← convertFromBuffer t (sliceJS buf pos (pos + byteLength t))
      let tail ← structDec rest buf (pos + byteLength t)
      some ((k, v) :: tail)
/-- UNION `convertFromBuffer`: decode the same leading region through every
child. -/
def unionDec : Children → List Nat → Option (List (String × IecValue))
  | .nil, _ => some []
  | .cons k t rest, buf => do
      let v ← convertFromBuffer t (sliceJS buf 0 (byteLength t))
      let tail ← unionDec rest buf
      some ((k, v) :: tail)
end

mutual
/-- `getDefault` of each schema class. The 64-bit integer classes return the
plain number `0` (not a `BigInt`), exactly as their source does. -/
def getDefault : IecType → IecValue
  | .BOOL => .bool false
  | .USINT => .num 0
  | .BYTE => .num 0
  | .SINT => .num 0
  | .UINT => .num 0
  | .WORD => .num 0
  | .INT => .num 0
  | .DINT => .num 0
  | .UDINT => .num 0
  | .DWORD => .num 0
  | .TIME => .num 0
  | .TOD => .num 0
  | .TIME_OF_DAY => .num 0
  | .DT => .num 0
  | .DATE_AND_TIME => .num 0
  | .DATE => .num 0
  | .REAL => .real32 0
  | .LREAL => .real64 0
  | .ULINT => .num 0
  | .LWORD => .num 0
  | .LINT => .num 0
  | .STRING _ => .str ""
  | .WSTRING _ => .str ""
  | .STRUCT cs => .obj (defaultFields cs)
  | .UNION cs => .obj (defaultFields cs)
  | .ARRAY dt dims => .arr (arrDefaultDim (getDefault dt) dims)
  | .ENUM defn dt =>
      match defn with
      | (k, v) :: _ => .enumEntry (some k) (.num v)
      | [] =>
          let value := getDefault dt
          match findEnumEntryByValue [] value with
          | some e => e
          | none => .enumEntry none value
def defaultFields : Children → List (String × IecValue)
  | .nil => []
  | .cons k t rest => (k, getDefault t) :: defaultFields rest
end

/-! ## Memory-order iterator (`TypeBase[Symbol.iterator]`) -/

/-- An entry yielded by the iterator (`IteratedIecType`). -/
structure IteratedIecType where
  name : Option String
  startIndex : Nat
  type : IecType

/-- Does the node carry a `children` property? Only STRUCT and UNION do. -/
def hasChildren : IecType → Bool
  | .STRUCT _ => true
  | .UNION _ => true
  | _ => false

mutual
/-- The iterator's inner `iterate(dt)` with the shared `startIndex` cursor,
returned alongside the yielded entries: a node without `children` is yielded
itself (nameless) and advances the cursor by its byte length. -/
def iterate : IecType → Nat → List IteratedIecType × Nat
  | .STRUCT cs, start => iterChildren cs start
  | .UNION cs, start => iterChildren cs start
  | t, start => ([⟨none, start, t⟩], start + byteLength t)
/-- The loop over a composite's children: a child with `children` is
recursed into; any other child is yielded under its name at the cursor,
which then advances by the child's byte length. -/
def iterChildren : Children → Nat → List IteratedIecType × Nat
  | .nil, start => ([], start)
  | .cons k t rest, start =>
      if hasChildren t then
        let (ys, s1) := iterate t start
        let (zs, s2) := iterChildren rest s1
        (ys ++ zs, s2)
      else
        let (zs, s1) := iterChildren rest (start + byteLength t)
        (⟨some k, start, t⟩ :: zs, s1)
end

/-- `variableIterator()` (the default iterator): all yielded entries of a
fresh traversal from cursor 0. -/
def variableIterator (t : IecType) : List IteratedIecType :=
  (iterate t 0).1

/-! ## Declaration resolver (`iec-types.ts`)

The resolver is embedded from `extractTypeDeclarations`'s output onward: an
`ExtractedType` is one extracted `TYPE ... END_TYPE` unit (name, kind and
raw content), and the functions below translate `resolveIecTypes`,
`resolveIecDataTypeUnit` and `resolveIecVariable`. The source memoizes each
unit's result in its mutable `resolved` field; since resolution is a
deterministic function of the unit, the unit list and the provided map, the
cache only avoids recomputation and the embedding recomputes instead, with
recursion depth bounded by explicit fuel (the source would overflow the
stack on genuinely cyclic declarations; fuel exhaustion models that). -/

/-- Extracted content of a data-type unit: STRUCT/UNION member lists hold
`(name, dataType-text)` pairs; an ENUM holds its backing-type text and its
`(member, value)` record; an ALIAS holds the target type text. -/
inductive ExtractedContent : Type where
  | structVars (vars : List (String × String))
  | unionVars (vars : List (String × String))
  | enumDef (dataType : String) (content : List (String × Int))
  | aliasTo (dataType : String)

/-- One extracted data-type unit (`ExtractedType` minus the transient
`resolved` cache field). -/
structure ExtractedType where
  name : String
  content : ExtractedContent

/-- The `type` tag string of each schema class. -/
def typeNameStr : IecType → String
  | .BOOL => "BOOL"
  | .USINT => "USINT"
  | .BYTE => "BYTE"
  | .SINT => "SINT"
  | .UINT => "UINT"
  | .WORD => "WORD"
  | .INT => "INT"
  | .DINT => "DINT"
  | .UDINT => "UDINT"
  | .DWORD => "DWORD"
  | .TIME => "TIME"
  | .TOD => "TOD"
  | .TIME_OF_DAY => "TIME_OF_DAY"
  | .DT => "DT"
  | .DATE_AND_TIME => "DATE_AND_TIME"
  | .DATE => "DATE"
  | .REAL => "REAL"
  | .LREAL => "LREAL"
  | .ULINT => "ULINT"
  | .LWORD => "LWORD"
  | .LINT => "LINT"
  | .STRING _ => "STRING"
  | .WSTRING _ => "WSTRING"
  | .STRUCT _ => "STRUCT"
  | .UNION _ => "UNION"
  | .ARRAY _ _ => "ARRAY"
  | .ENUM _ _ => "ENUM"

/-- The fixed `nonComplexTypes` table, in source order. -/
def nonComplexTypes : List IecType :=
  [.BOOL, .USINT, .BYTE, .SINT, .UINT, .WORD, .INT, .DINT, .UDINT, .DWORD,
   .TIME, .TOD, .TIME_OF_DAY, .DT, .DATE_AND_TIME, .DATE, .REAL, .LREAL,
   .ULINT, .LWORD, .LINT]

/-- Whitespace as the `\s` character class matches it on these inputs. -/
def isSpaceJS (c : Char) : Bool :=
  c = ' ' ∨ c = '\t' ∨ c = '\n' ∨ c = '\r'

/-- Case-insensitive keyword test at the head of a character list. -/
def startsWithCI (pre : String) (s : List Char) : Bool :=
  (s.take pre.length).map Char.toLower == pre.data

/-- Scan to the first `]` or `)` (the lazy `(.*?)[\])]` step of the string
and array patterns), returning the content before it and the rest after. -/
def takeToCloser : List Char → Option (List Char × List Char)
  | [] => none
  | c :: rest =>
      if c = ']' ∨ c = ')' then some ([], rest)
      else (takeToCloser rest).map fun p => (c :: p.1, p.2)

mutual
/-- The repeated bracket-group tail `([\[\(](.*?)[\)\]])*$` of `stringRegEx`:
consume zero or more bracket groups to the end of input, capturing the last
group's content (`acc` holds the last complete group so far). -/
def bracketGroupsLast : List Char → Option (List Char) → Option (Option (List Char))
  | [], acc => some acc
  | c :: rest, acc =>
      if c = '[' ∨ c = '(' then bracketGroupInner rest [] acc
      else none
/-- Inside a bracket group: scan to its closer, accumulating the (reversed)
content. -/
def bracketGroupInner : List Char → List Char → Option (List Char) →
    Option (Option (List Char))
  | [], _, _ => none
  | c :: rest, content, acc =>
      if c = ']' ∨ c = ')' then bracketGroupsLast rest (some content.reverse)
      else bracketGroupInner rest (c :: content) acc
end

/-- Model of `stringRegEx` (`^(STRING|WSTRING)([\[\(](.*?)[\)\]])*$`,
case-insensitive): returns whether the wide form matched and the last
bracket group's content, if any. -/
def matchStringDef (s : String) : Option (Bool × Option String) :=
  let cs := s.data
  if startsWithCI "wstring" cs then
    (bracketGroupsLast (cs.drop 7) none).map fun g => (true, g.map (⟨·⟩))
  else if startsWithCI "string" cs then
    (bracketGroupsLast (cs.drop 6) none).map fun g => (false, g.map (⟨·⟩))
  else none

/-- JavaScript `parseInt` in base 10 on the inputs the resolver feeds it:
leading whitespace, an optional sign, then a leading digit run; no digits
give NaN (`none`). -/
def parseIntJS (s : String) : Option Int :=
  let cs := s.data.dropWhile isSpaceJS
  match cs with
  | '-' :: rest => (leadDigits rest).map fun n => -(n : Int)
  | '+' :: rest => (leadDigits rest).map fun n => (n : Int)
  | _ => (leadDigits cs).map fun n => (n : Int)
where
  leadDigits (cs : List Char) : Option Nat :=
    let ds := cs.takeWhile Char.isDigit
    if ds.isEmpty then none
    else some (ds.foldl (fun acc c => acc * 10 + (c.toNat - 48)) 0)

/-- The body of `arrayRegEx` after its `array` keyword:
`\s*[\[(]+(.*?)[\])]\s*of\s*([^:;]*)` — skip whitespace, consume the opener
run, capture lazily to the first closer (the dimension text), then require
`of` and capture the element-type text up to the first `:` or `;`. -/
def matchArrayAfterKeyword (cs : List Char) : Option (List Char × List Char) :=
  let cs1 := cs.dropWhile isSpaceJS
  match cs1 with
  | c :: _ =>
      if c = '[' ∨ c = '(' then
        match takeToCloser (cs1.dropWhile fun d => d = '[' ∨ d = '(') with
        | some (dimsText, rest2) =>
            let rest3 := rest2.dropWhile isSpaceJS
            if startsWithCI "of" rest3 then
              let rest4 := (rest3.drop 2).dropWhile isSpaceJS
              some (dimsText, rest4.takeWhile fun d => d ≠ ':' ∧ d ≠ ';')
            else none
        | none => none
      else none
  | [] => none

/-- Model of `arrayRegEx` (`array\s*[\[(]+(.*?)[\])]\s*of\s*([^:;]*)`,
case-insensitive, unanchored): the pattern is tried from each occurrence of
the `array` keyword. -/
def findArrayKeyword : List Char → Option (List Char × List Char)
  | [] => none
  | c :: rest =>
      if startsWithCI "array" (c :: rest) then
        match matchArrayAfterKeyword ((c :: rest).drop 5) with
        | some r => some r
        | none => findArrayKeyword rest
      else findArrayKeyword rest

/-- Array-syntax match on a type-name text. -/
def matchArrayDef (s : String) : Option (String × String) :=
  (findArrayKeyword s.data).map fun p => (⟨p.1⟩, ⟨p.2⟩)

/-- One `lo..hi` pair of `arrayDimensionsRegEx`
(`([^\.,\s]*)\s*\.\.\s*([^,\s]*)`), turned into the dimension size
`parseInt(hi) - parseInt(lo) + 1`. A pair that does not parse would produce
a NaN dimension in JavaScript, which poisons the schema; it is modeled as a
resolution failure (reversed bounds, which would produce a negative size,
do not occur in well-formed declarations and are clamped by `toNat`). -/
def parseDimPair (piece : List Char) : Option Nat := do
  let loT := piece.dropWhile isSpaceJS
  let lo := loT.takeWhile fun c => c ≠ '.' ∧ c ≠ ',' ∧ ¬isSpaceJS c
  match (loT.drop lo.length).dropWhile isSpaceJS with
  | '.' :: '.' :: rest2 =>
      let hiT := rest2.dropWhile isSpaceJS
      let hi := hiT.takeWhile fun c => c ≠ ',' ∧ ¬isSpaceJS c
      let l ← parseIntJS ⟨lo⟩
      let h ← parseIntJS ⟨hi⟩
      pure (h - l + 1).toNat
  | _ => none

/-- Split the dimension text at commas (the global regex matches one
`lo..hi` pair per comma-separated piece). -/
def splitComma : List Char → List (List Char)
  | [] => [[]]
  | c :: rest =>
      if c = ',' then [] :: splitComma rest
      else
        match splitComma rest with
        | p :: ps => (c :: p) :: ps
        | [] => [[c]]

/-- All dimension sizes of an `ARRAY[...]` dimension text. -/
def matchDims (s : String) : Option (List Nat) :=
  parseDims (splitComma s.data)
where
  parseDims : List (List Char) → Option (List Nat)
    | [] => some []
    | p :: ps => do pure ((← parseDimPair p) :: (← parseDims ps))

mutual
/-- `resolveIecVariable`: resolve a member's type-name text against, in
order, the primitive table, STRING/WSTRING syntax (length defaulting to 80
when the capture is absent or empty), ARRAY syntax (recursing into the
element text), the extracted units of the batch, and the externally
provided map; every lookup is case-insensitive and `none` models the fatal
`Unknown data type` error. Fuel decreases at every call so the recursion is
structural; the JavaScript original recurses unboundedly. -/
def resolveIecVariable : Nat → String → List ExtractedType →
    List (String × IecType) → Option IecType
  | 0, _, _, _ => none
  | fuel + 1, dataType, types, provided =>
      match nonComplexTypes.find? (fun t => lowerStr (typeNameStr t) == lowerStr dataType) with
      | some t => some t
      | none =>
        match matchStringDef dataType with
        | some (isWide, cap) =>
            match cap with
            | none => some (if isWide then .WSTRING 80 else .STRING 80)
            | some capStr =>
                if capStr == "" then some (if isWide then .WSTRING 80 else .STRING 80)
                else
                  match parseIntJS capStr with
                  | some n =>
                      if 0 ≤ n then some (if isWide then .WSTRING n.toNat else .STRING n.toNat)
                      else none
                  | none => none
        | none =>
          match matchArrayDef dataType with
          | some (dimsText, elemText) => do
              let elem ← resolveIecVariable fuel elemText types provided
              let dims ← matchDims dimsText
              some (.ARRAY elem dims)
          | none =>
            match types.find? (fun u => lowerStr u.name == lowerStr dataType) with
            | some u => resolveIecDataTypeUnit fuel u types provided
            | none =>
                (provided.find? (fun p => lowerStr p.1 == lowerStr dataType)).map (·.2)
/-- `resolveIecDataTypeUnit`: build the schema of one extracted unit. An
ALIAS resolves to exactly the target's schema, with no wrapper. -/
def resolveIecDataTypeUnit : Nat → ExtractedType → List ExtractedType →
    List (String × IecType) → Option IecType
  | 0, _, _, _ => none
  | fuel + 1, u, types, provided =>
      match u.content with
      | .structVars vars =>
          (resolveMembers fuel vars types provided).map fun cs => .STRUCT (Children.ofList cs)
      | .unionVars vars =>
          (resolveMembers fuel vars types provided).map fun cs => .UNION (Children.ofList cs)
      | .enumDef dtName content =>
          (resolveIecVariable fuel dtName types provided).map fun dt => .ENUM content dt
      | .aliasTo dtName => resolveIecVariable fuel dtName types provided
/-- The member loop of STRUCT/UNION resolution, in declared order. -/
def resolveMembers : Nat → List (String × String) → List ExtractedType →
    List (String × IecType) → Option (List (String × IecType))
  | 0, _, _, _ => none
  | _ + 1, [], _, _ => some []
  | fuel + 1, (n, dtText) :: rest, types, provided => do
      let t ← resolveIecVariable fuel dtText types provided
      let tail ← resolveMembers fuel rest types provided
      pure ((n, t) :: tail)
end

/-- The resolution loop of `resolveIecTypes`: every unit of the batch is
resolved (an error anywhere aborts the whole call). -/
def resolveAllUnits (fuel : Nat) : List ExtractedType → List ExtractedType →
    List (String × IecType) → Option Unit
  | [], _, _ => some ()
  | u :: rest, types, provided => do
      let _ ← resolveIecDataTypeUnit fuel u types provided
      resolveAllUnits fuel rest types provided

/-- Resolution with a settled top-level name: resolve the whole batch, then
return the schema of the (case-insensitively) named unit. -/
def resolveWithTop (fuel : Nat) (types : List ExtractedType) (top : String)
    (provided : List (String × IecType)) : Option IecType := do
  let _ ← resolveAllUnits fuel types types provided
  let u ← types.find? fun u => lowerStr u.name == lowerStr top
  resolveIecDataTypeUnit fuel u types provided

/-- `resolveIecTypes` from the extracted unit list onward: an absent (or
empty, hence falsy) top-level name is allowed only when exactly one unit was
extracted, which then becomes the implicit top level; with several units and
no name the call is a fatal ambiguity error. -/
def resolveIecTypes (fuel : Nat) (types : List ExtractedType)
    (topLevelDataType : Option String) (provided : List (String × IecType)) :
    Option IecType :=
  let given : Option String :=
    match topLevelDataType with
    | some n => if n == "" then none else some n
    | none => none
  match given with
  | some n => resolveWithTop fuel types n provided
  | none =>
      match types with
      | [u] => resolveWithTop fuel types u.name provided
      | _ => none

/-! ## Spec-side definitions

These definitions follow the wording of the specification (sum / max /
product arithmetic, the claims' value-validity domains and their comparison
conventions) and are compared against the embedded source functions by the
theorems below. -/

/-- Names of a composite's children, in declared order. -/
def childNames : Children → List String
  | .nil => []
  | .cons k _ rest => k :: childNames rest

mutual
/-- Spec wording of the byteLength rule: sum for STRUCT, max for UNION,
product-of-dimensions times element for ARRAY, backing length for ENUM. -/
def specByteLength : IecType → Nat
  | .BOOL => 1
  | .USINT => 1
  | .BYTE => 1
  | .SINT => 1
  | .UINT => 2
  | .WORD => 2
  | .INT => 2
  | .DINT => 4
  | .UDINT => 4
  | .DWORD => 4
  | .TIME => 4
  | .TOD => 4
  | .TIME_OF_DAY => 4
  | .DT => 4
  | .DATE_AND_TIME => 4
  | .DATE => 4
  | .REAL => 4
  | .LREAL => 8
  | .ULINT => 8
  | .LWORD => 8
  | .LINT => 8
  | .STRING length => length + 1
  | .WSTRING length => length * 2 + 2
  | .STRUCT cs => specSumLen cs
  | .UNION cs => specMaxLen cs
  | .ARRAY dt dims => dims.prod * specByteLength dt
  | .ENUM _ dt => specByteLength dt
/-- Sum of the children's spec byte lengths. -/
def specSumLen : Children → Nat
  | .nil => 0
  | .cons _ t rest => specByteLength t + specSumLen rest
/-- Maximum of the children's spec byte lengths (0 for no children). -/
def specMaxLen : Children → Nat
  | .nil => 0
  | .cons _ t rest => max (specByteLength t) (specMaxLen rest)
end

/-- The integer kinds of 1, 2 or 4 bytes (every `EnumDataType` except the
BigInt-backed 64-bit kinds). -/
def isSmallIntKind : IecType → Bool
  | .USINT | .BYTE | .SINT | .UINT | .WORD | .INT | .DINT | .UDINT | .DWORD
  | .TIME | .TOD | .TIME_OF_DAY | .DT | .DATE_AND_TIME | .DATE => true
  | _ => false

/-- An integral number in the exact range Node's fixed-width write accepts. -/
def validIntVal (w : Nat) (signed : Bool) : IecValue → Bool
  | .num n =>
      if signed then decide (-(2 ^ (8 * w - 1)) ≤ n ∧ n ≤ 2 ^ (8 * w - 1) - 1)
      else decide (0 ≤ n ∧ n ≤ 2 ^ (8 * w) - 1)
  | _ => false

/-- A float bit pattern that denotes an actual (non-NaN) number, so that the
pattern-to-number correspondence is injective. -/
def validBits32 (bits : Nat) : Bool :=
  decide (bits < 2 ^ 32) && !(decide (bits / 2 ^ 23 % 2 ^ 8 = 255) && decide (bits % 2 ^ 23 ≠ 0))

/-- As `validBits32` for doubles. -/
def validBits64 (bits : Nat) : Bool :=
  decide (bits < 2 ^ 64) && !(decide (bits / 2 ^ 52 % 2 ^ 11 = 2047) && decide (bits % 2 ^ 52 ≠ 0))

/-- Validity of a value along the array dimension walk: a nesting of exact
length along every dimension, with the code's own next-dimension truthiness
deciding where the element level is (a later dimension of 0 admits no valid
value, matching the fact that the codec cannot round-trip there). -/
def validArr (p : IecValue → Bool) : List Nat → IecValue → Bool
  | [], v =>
      match v with
      | .arr es => es.isEmpty
      | _ => false
  | d :: rest, v =>
      match v with
      | .arr es =>
          (es.length == d) &&
            (if nextDimTruthy rest then
                (match rest with | r :: _ => r ≠ 0 | [] => true) &&
                  es.all (validArr p rest)
              else rest.isEmpty && es.all p)
      | _ => false

mutual
/-- The domain of claim C2: in-range values of each schema's value type.
Integers must sit in the exact range of the backing write, strings must fit
their declared capacity with single-byte (resp. UTF-16) characters, STRUCT
values carry exactly the declared fields in declared order (JavaScript
objects also make the names unique), ARRAY values have the exact nested
shape, and ENUM values are numeric, in backing range and nonzero with an
integral backing as `EnumDataType` requires. UNION schemas are not part of
the claim and admit no valid value. -/
def validValue : IecType → IecValue → Bool
  | .BOOL, v =>
      match v with
      | .bool _ => true
      | _ => false
  | .USINT, v | .BYTE, v => validIntVal 1 false v
  | .SINT, v => validIntVal 1 true v
  | .UINT, v | .WORD, v => validIntVal 2 false v
  | .INT, v => validIntVal 2 true v
  | .DINT, v => validIntVal 4 true v
  | .UDINT, v | .DWORD, v | .TIME, v | .TOD, v | .TIME_OF_DAY, v | .DT, v
  | .DATE_AND_TIME, v | .DATE, v => validIntVal 4 false v
  | .REAL, v =>
      match v with
      | .real32 bits => validBits32 bits
      | _ => false
  | .LREAL, v =>
      match v with
      | .real64 bits => validBits64 bits
      | _ => false
  | .ULINT, v | .LWORD, v =>
      match v with
      | .bignum n => decide (0 ≤ n ∧ n ≤ 2 ^ 64 - 1)
      | _ => false
  | .LINT, v =>
      match v with
      | .bignum n => decide (-(2 ^ 63) ≤ n ∧ n ≤ 2 ^ 63 - 1)
      | _ => false
  | .STRING length, v =>
      match v with
      | .str s => decide (s.data.length ≤ length) && s.data.all (fun c => c.toNat < 256)
      | _ => false
  | .WSTRING length, v =>
      match v with
      | .str s => decide (s.data.length ≤ length) && s.data.all (fun c => c.toNat < 2 ^ 16)
      | _ => false
  | .STRUCT cs, v =>
      match v with
      | .obj fs => decide (childNames cs).Nodup && validFields cs fs
      | _ => false
  | .UNION _, _ => false
  | .ARRAY dt dims, v => validArr (validValue dt) dims v
  | .ENUM _ dt, v =>
      match v with
      | .num n => (n != 0) && isSmallIntKind dt && validValue dt (.num n)
      | _ => false
/-- Fields of a valid STRUCT value: positionally aligned with the declared
children. -/
def validFields : Children → List (String × IecValue) → Bool
  | .nil, [] => true
  | .cons k t rest, (k1, v) :: fs => (k1 == k) && validValue t v && validFields rest fs
  | _, _ => false
end

/-- Canonicalization along the array walk. -/
def canonArr (f : IecValue → IecValue) : List Nat → IecValue → IecValue
  | [], v =>
      match v with
      | .arr _ => .arr []
      | _ => v
  | _ :: rest, v =>
      match v with
      | .arr es =>
          .arr (es.map fun e =>
            if nextDimTruthy rest then canonArr f rest e else f e)
      | _ => v

mutual
/-- The claim's comparison convention: the decoded value equals the encoded
one up to trimming strings at the first zero character and recomputing an
enum entry's name from its numeric value (first declared match, or an
undefined name). Other values canonicalize to themselves. -/
def canonValue : IecType → IecValue → IecValue
  | .STRING _, v =>
      match v with
      | .str s => .str (trimPlcString s)
      | _ => v
  | .WSTRING _, v =>
      match v with
      | .str s => .str (trimPlcString s)
      | _ => v
  | .STRUCT cs, v =>
      match v with
      | .obj fs => .obj (canonFields cs fs)
      | _ => v
  | .ARRAY dt dims, v => canonArr (canonValue dt) dims v
  | .ENUM defn _, v =>
      match v with
      | .num n =>
          match findEnumEntryByValue defn (.num n) with
          | some e => e
          | none => .enumEntry none (.num n)
      | _ => v
  | _, v => v
/-- Canonicalize a struct value's fields positionally. -/
def canonFields : Children → List (String × IecValue) → List (String × IecValue)
  | .nil, _ => []
  | .cons _ _ _, [] => []
  | .cons k t rest, (_, v) :: fs => (k, canonValue t v) :: canonFields rest fs
end

mutual
/-- The domain on which `getDefault` round-trips: the 64-bit integer kinds
are excluded (their default is the plain number 0 while their write demands
a BigInt), an ENUM needs a nonempty definition whose first entry has value 0
and a truthy name together with a small integral backing, and array
dimensions must be all positive (or absent). -/
def goodDefault : IecType → Bool
  | .ULINT | .LWORD | .LINT => false
  | .STRUCT cs | .UNION cs => decide (childNames cs).Nodup && goodDefaultFields cs
  | .ARRAY dt dims => goodDefault dt && (dims.isEmpty || dims.all (0 < ·))
  | .ENUM defn dt =>
      match defn with
      | (k, v) :: _ => (v == 0) && (k != "") && isSmallIntKind dt
      | [] => false
  | _ => true
/-- All children round-trip their defaults. -/
def goodDefaultFields : Children → Bool
  | .nil => true
  | .cons _ t rest => goodDefault t && goodDefaultFields rest
end

/-- Per-child encodings of a STRUCT input, in declared order (the buffers
`STRUCT.convertToBuffer` produces and copies at its running position). -/
def childEncs : Children → IecValue → Option (List (List Nat))
  | .nil, _ => some []
  | .cons k t rest, data => do
      let c ← convertToBuffer t (getFieldJS data k)
      let tail ← childEncs rest data
      pure (c :: tail)

/-- Encodings of the UNION children whose input is not strictly `undefined`,
in declared order (the buffers `UNION.convertToBuffer` copies at offset 0). -/
def definedEncs : Children → IecValue → Option (List (List Nat))
  | .nil, _ => some []
  | .cons k t rest, data =>
      match getFieldJS data k with
      | .undef => definedEncs rest data
      | v => do
          let c ← convertToBuffer t v
          let tail ← definedEncs rest data
          pure (c :: tail)

/-- Total length of a list of buffers. -/
def sumLens (l : List (List Nat)) : Nat :=
  (l.map List.length).sum

/-- Number of element-level decode steps `ARRAY.convertFromBuffer` performs:
the product of the dimensions the walk actually descends (a trailing
dimension after a falsy next one is never entered). -/
def countElems : List Nat → Nat
  | [] => 0
  | d :: rest => if nextDimTruthy rest then d * countElems rest else d

/-! ## Buffer lemmas -/

theorem natToBytesLE_length : ∀ w m, (natToBytesLE w m).length = w
  | 0, _ => rfl
  | w + 1, m => by simp [natToBytesLE, natToBytesLE_length w]

theorem bytesToNatLE_natToBytesLE : ∀ w m, m < 256 ^ w →
    bytesToNatLE (natToBytesLE w m) = m
  | 0, m, h => by simp [natToBytesLE, bytesToNatLE]; omega
  | w + 1, m, h => by
      have hdiv : m / 256 < 256 ^ w := by
        rw [Nat.div_lt_iff_lt_mul (by norm_num)]
        calc m < 256 ^ (w + 1) := h
          _ = 256 ^ w * 256 := by ring
      simp [natToBytesLE, bytesToNatLE, bytesToNatLE_natToBytesLE w (m / 256) hdiv]
      omega

theorem bytesToNatLE_lt : ∀ bs : List Nat, bytesToNatLE bs < 256 ^ bs.length
  | [] => by simp [bytesToNatLE]
  | b :: rest => by
      have h1 : b % 256 < 256 := Nat.mod_lt _ (by norm_num)
      have h2 := bytesToNatLE_lt rest
      simp only [bytesToNatLE, List.length_cons]
      calc b % 256 + 256 * bytesToNatLE rest
          ≤ 255 + 256 * bytesToNatLE rest := by omega
        _ < 256 * (bytesToNatLE rest + 1) := by omega
        _ ≤ 256 * 256 ^ rest.length := by
            have : bytesToNatLE rest + 1 ≤ 256 ^ rest.length := h2
            exact Nat.mul_le_mul_left _ this
        _ = 256 ^ (rest.length + 1) := by ring

theorem listExtLen {l1 l2 : List Nat} (hlen : l1.length = l2.length)
    (h : ∀ i, i < l1.length → l1[i]? = l2[i]?) : l1 = l2 := by
  apply List.ext_getElem?
  intro i
  rcases Nat.lt_or_ge i l1.length with hi | hi
  · exact h i hi
  · have h1 : l1[i]? = none := List.getElem?_eq_none hi
    have h2 : l2[i]? = none := List.getElem?_eq_none (by omega)
    rw [h1, h2]

theorem copyInto_length (tgt : List Nat) (pos : Nat) (src : List Nat) :
    (copyInto tgt pos src).length = tgt.length := by
  simp [copyInto]
  omega

theorem zerosBuf_length (n : Nat) : (zerosBuf n).length = n := by
  simp [zerosBuf]

theorem copyInto_getElem? (tgt : List Nat) (pos : Nat) (src : List Nat) (i : Nat)
    (hi : i < tgt.length) :
    (copyInto tgt pos src)[i]? =
      if pos ≤ i ∧ i < pos + min src.length (tgt.length - pos) then src[i - pos]?
      else tgt[i]? := by
  simp only [copyInto]
  rw [List.getElem?_append, List.getElem?_append]
  simp only [List.length_take, List.length_append, List.getElem?_take, List.getElem?_drop]
  split_ifs <;>
    first
      | rfl
      | (exfalso; omega)
      | (congr 1; omega)

theorem copyInto_append (tgt : List Nat) (pos : Nat) (a b : List Nat) :
    copyInto (copyInto tgt pos a) (pos + a.length) b = copyInto tgt pos (a ++ b) := by
  apply listExtLen (by rw [copyInto_length, copyInto_length, copyInto_length])
  intro i hi
  rw [copyInto_length, copyInto_length] at hi
  rw [copyInto_getElem? _ _ _ _ (by rw [copyInto_length]; exact hi),
    copyInto_getElem? _ _ _ _ hi, copyInto_getElem? _ _ _ _ hi]
  simp only [copyInto_length, List.length_append, List.getElem?_append]
  split_ifs <;>
    first
      | rfl
      | (exfalso; omega)
      | (congr 1; omega)

theorem copyInto_zero_append (tgt src : List Nat) (h : src.length ≤ tgt.length) :
    copyInto tgt 0 src = src ++ tgt.drop src.length := by
  simp only [copyInto, List.take_zero, List.nil_append, Nat.sub_zero, Nat.zero_add]
  rw [List.take_of_length_le h, min_eq_left h]

theorem copyInto_zero_full (tgt src : List Nat) (h : src.length = tgt.length) :
    copyInto tgt 0 src = src := by
  rw [copyInto_zero_append tgt src (le_of_eq h), h, List.drop_length, List.append_nil]

theorem sliceJS_length (buf : List Nat) (start stop : Nat) :
    (sliceJS buf start stop).length = min (stop - start) (buf.length - start) := by
  simp [sliceJS]

theorem jsLoop_inv {s : Type} (step : Nat → s → Option s) (Inv : s → Prop)
    (hstep : ∀ i st st1, step i st = some st1 → Inv st → Inv st1) :
    ∀ k i st out, jsLoop step k i st = some out → Inv st → Inv out := by
  intro k
  induction k with
  | zero =>
      intro i st out h hInv
      simp [jsLoop] at h
      exact h ▸ hInv
  | succ k ih =>
      intro i st out h hInv
      rw [jsLoop] at h
      cases hs : step i st with
      | none => rw [hs] at h; simp at h
      | some st1 =>
          rw [hs] at h
          simp at h
          exact ih (i + 1) st1 out h (hstep i st st1 hs hInv)

/-! ## Byte-length arithmetic (claim C1) -/

theorem foldl_mul_eq_prod : ∀ (l : List Nat) (a : Nat), l.foldl (· * ·) a = a * l.prod
  | [], a => by simp
  | x :: rest, a => by
      simp only [List.foldl_cons, foldl_mul_eq_prod rest, List.prod_cons]
      ring

theorem totalSize_eq_prod (dims : List Nat) : totalSize dims = dims.prod := by
  simp [totalSize, foldl_mul_eq_prod]

mutual
theorem byteLength_spec : ∀ t, byteLength t = specByteLength t
  | .BOOL => rfl
  | .USINT => rfl
  | .BYTE => rfl
  | .SINT => rfl
  | .UINT => rfl
  | .WORD => rfl
  | .INT => rfl
  | .DINT => rfl
  | .UDINT => rfl
  | .DWORD => rfl
  | .TIME => rfl
  | .TOD => rfl
  | .TIME_OF_DAY => rfl
  | .DT => rfl
  | .DATE_AND_TIME => rfl
  | .DATE => rfl
  | .REAL => rfl
  | .LREAL => rfl
  | .ULINT => rfl
  | .LWORD => rfl
  | .LINT => rfl
  | .STRING _ => rfl
  | .WSTRING _ => rfl
  | .STRUCT cs => by
      simp [byteLength, specByteLength, structLenAcc_spec cs 0]
  | .UNION cs => by
      simp [byteLength, specByteLength, unionLenAcc_spec cs 0]
  | .ARRAY dt dims => by
      simp [byteLength, specByteLength, byteLength_spec dt, totalSize_eq_prod]
  | .ENUM defn dt => by
      simp [byteLength, specByteLength, byteLength_spec dt]
theorem structLenAcc_spec : ∀ cs acc, structLenAcc cs acc = acc + specSumLen cs
  | .nil, acc => by simp [structLenAcc, specSumLen]
  | .cons k t rest, acc => by
      simp only [structLenAcc, specSumLen, structLenAcc_spec rest, byteLength_spec t]
      omega
theorem unionLenAcc_spec : ∀ cs acc, unionLenAcc cs acc = max acc (specMaxLen cs)
  | .nil, acc => by simp [unionLenAcc, specMaxLen]
  | .cons k t rest, acc => by
      simp only [unionLenAcc, unionLenAcc_spec rest, specMaxLen, byteLength_spec t]
      split <;> omega
end

theorem specSumLen_eq_sum : ∀ cs : Children,
    specSumLen cs = (cs.toList.map fun c => specByteLength c.2).sum
  | .nil => rfl
  | .cons k t rest => by
      simp [specSumLen, Children.toList, specSumLen_eq_sum rest]

theorem structLen_eq_sum (cs : Children) :
    byteLength (.STRUCT cs) = (cs.toList.map fun c => byteLength c.2).sum := by
  have hmap : (cs.toList.map fun c => byteLength c.2) =
      cs.toList.map fun c => specByteLength c.2 :=
    List.map_congr_left fun a _ => byteLength_spec a.2
  rw [byteLength_spec, hmap]
  show specSumLen cs = _
  rw [specSumLen_eq_sum]

theorem specMaxLen_eq_foldr : ∀ cs : Children,
    specMaxLen cs = (cs.toList.map fun c => specByteLength c.2).foldr max 0
  | .nil => rfl
  | .cons k t rest => by
      simp [specMaxLen, Children.toList, specMaxLen_eq_foldr rest]

theorem child_le_specMaxLen : ∀ (cs : Children) (p : String × IecType),
    p ∈ cs.toList → specByteLength p.2 ≤ specMaxLen cs
  | .cons k t rest, p, hp => by
      rcases List.mem_cons.mp hp with h | h
      · simp [specMaxLen, h]
      · have := child_le_specMaxLen rest p h
        simp only [specMaxLen]
        omega

/-- C1: for every schema node the `byteLength` fixed at construction equals
the spec's arithmetic — the sum of the children's byte lengths for a STRUCT,
their maximum for a UNION, the product of all dimension sizes times the
element type's byte length for an ARRAY (with `totalSize` the product of the
dimensions), recursively, with no padding added anywhere. -/
theorem c1_byteLength_construction :
    (∀ t : IecType, byteLength t = specByteLength t) ∧
    (∀ cs : Children,
        byteLength (.STRUCT cs) = (cs.toList.map fun c => byteLength c.2).sum) ∧
    (∀ cs : Children,
        byteLength (.UNION cs) = (cs.toList.map fun c => byteLength c.2).foldr max 0) ∧
    (∀ (dt : IecType) (dims : List Nat),
        byteLength (.ARRAY dt dims) = dims.prod * byteLength dt ∧
        totalSize dims = dims.prod) ∧
    (∀ (defn : List (String × Int)) (dt : IecType),
        byteLength (.ENUM defn dt) = byteLength dt) := by
  have hmap : ∀ cs : Children,
      (cs.toList.map fun c => byteLength c.2) = cs.toList.map fun c => specByteLength c.2 := by
    intro cs
    apply List.map_congr_left
    intro a _
    exact byteLength_spec a.2
  refine ⟨byteLength_spec, ?_, ?_, ?_, fun _ _ => rfl⟩
  · intro cs
    rw [byteLength_spec, hmap]
    simp [specByteLength, specSumLen_eq_sum]
  · intro cs
    rw [byteLength_spec, hmap]
    simp [specByteLength, specMaxLen_eq_foldr]
  · intro dt dims
    exact ⟨by simp [byteLength, totalSize_eq_prod], totalSize_eq_prod dims⟩

/-! ## Encoded-buffer lengths -/

theorem writeIntLE_length (w : Nat) (signed : Bool) (v : IecValue) (b : List Nat)
    (h : writeIntLE w signed v = some b) : b.length = w := by
  unfold writeIntLE at h
  cases hn : toNumberForWrite v with
  | none =>
      rw [hn] at h
      simp at h
      rw [← h]
      exact zerosBuf_length w
  | some n =>
      rw [hn] at h
      simp at h
      rw [← h.2]
      exact natToBytesLE_length ..

theorem writeBigLE_length (signed : Bool) (v : IecValue) (b : List Nat)
    (h : writeBigLE signed v = some b) : b.length = 8 := by
  unfold writeBigLE at h
  cases v <;> simp at h
  rw [← h.2]
  exact natToBytesLE_length ..

theorem structEnc_length : ∀ (cs : Children) (data : IecValue) (buf : List Nat)
    (pos : Nat) (out : List Nat), structEnc cs data buf pos = some out →
    out.length = buf.length
  | .nil, data, buf, pos, out, h => by
      simp [structEnc] at h
      rw [← h]
  | .cons k t rest, data, buf, pos, out, h => by
      rw [structEnc] at h
      cases hc : convertToBuffer t (getFieldJS data k) with
      | none => rw [hc] at h; simp at h
      | some conv =>
          rw [hc] at h
          simp at h
          rw [structEnc_length rest data _ _ out h, copyInto_length]

theorem unionEnc_length : ∀ (cs : Children) (data : IecValue) (buf : List Nat)
    (out : List Nat), unionEnc cs data buf = some out → out.length = buf.length
  | .nil, data, buf, out, h => by
      simp [unionEnc] at h
      rw [← h]
  | .cons k t rest, data, buf, out, h => by
      rw [unionEnc] at h
      split at h
      · exact unionEnc_length rest data buf out h
      · cases hc : convertToBuffer t (getFieldJS data k) with
        | none => rw [hc] at h; simp at h
        | some conv =>
            rw [hc] at h
            simp at h
            rw [unionEnc_length rest data _ out h, copyInto_length]

theorem arrEncDim_fstLen (enc : IecValue → Option (List Nat)) :
    ∀ (dims : List Nat) (data : IecValue) (st out : List Nat × Nat),
    arrEncDim enc dims data st = some out → out.1.length = st.1.length
  | [], data, st, out, h => by
      simp [arrEncDim] at h
      rw [← h]
  | d :: rest, data, st, out, h => by
      rw [arrEncDim] at h
      refine jsLoop_inv _ (fun s => s.1.length = st.1.length) ?_ d 0 st out h rfl
      intro i s1 s2 hs hInv
      cases hx : indexJS data i with
      | none => rw [hx] at hs; simp at hs
      | some x =>
          rw [hx] at hs
          simp only [Option.pure_def, Option.bind_eq_bind, Option.some_bind] at hs
          split at hs
          · rw [← hInv]
            exact arrEncDim_fstLen enc rest x s1 s2 hs
          · cases hc : enc x with
            | none => rw [hc] at hs; simp at hs
            | some conv =>
                rw [hc] at hs
                simp only [Option.pure_def, Option.bind_eq_bind, Option.some_bind,
                  Option.some.injEq] at hs
                rw [← hs, copyInto_length]
                exact hInv

theorem encLen : ∀ (t : IecType) (v : IecValue) (b : List Nat),
    convertToBuffer t v = some b → b.length = byteLength t ∨ b.length = 0
  | .BOOL, v, b, h => by
      simp [convertToBuffer] at h
      left
      rw [← h]
      rfl
  | .USINT, v, b, h | .BYTE, v, b, h => Or.inl (writeIntLE_length 1 false v b h)
  | .SINT, v, b, h => Or.inl (writeIntLE_length 1 true v b h)
  | .UINT, v, b, h | .WORD, v, b, h => Or.inl (writeIntLE_length 2 false v b h)
  | .INT, v, b, h => Or.inl (writeIntLE_length 2 true v b h)
  | .DINT, v, b, h => Or.inl (writeIntLE_length 4 true v b h)
  | .UDINT, v, b, h | .DWORD, v, b, h | .TIME, v, b, h | .TOD, v, b, h
  | .TIME_OF_DAY, v, b, h | .DT, v, b, h | .DATE_AND_TIME, v, b, h
  | .DATE, v, b, h => Or.inl (writeIntLE_length 4 false v b h)
  | .REAL, v, b, h => by
      cases v <;> simp [convertToBuffer] at h
      left
      rw [← h]
      simp [natToBytesLE_length, byteLength]
  | .LREAL, v, b, h => by
      cases v <;> simp [convertToBuffer] at h
      left
      rw [← h]
      simp [natToBytesLE_length, byteLength]
  | .ULINT, v, b, h | .LWORD, v, b, h => Or.inl (writeBigLE_length false v b h)
  | .LINT, v, b, h => Or.inl (writeBigLE_length true v b h)
  | .STRING length, v, b, h => by
      simp [convertToBuffer] at h
      left
      rw [← h, copyInto_length, zerosBuf_length]
      rfl
  | .WSTRING length, v, b, h => by
      simp [convertToBuffer] at h
      left
      rw [← h, copyInto_length, zerosBuf_length]
      rfl
  | .STRUCT cs, v, b, h => by
      rw [convertToBuffer] at h
      split at h
      · simp at h; right; simp [h]
      · left
        rw [structEnc_length cs v _ 0 b h, zerosBuf_length]
  | .UNION cs, v, b, h => by
      rw [convertToBuffer] at h
      split at h
      · simp at h; right; simp [h]
      · left
        rw [unionEnc_length cs v _ b h, zerosBuf_length]
  | .ARRAY dt dims, v, b, h => by
      rw [convertToBuffer] at h
      split at h
      · simp at h; right; simp [h]
      · cases harr : arrEncDim (convertToBuffer dt) dims v (zerosBuf (byteLength (.ARRAY dt dims)), 0) with
        | none => rw [harr] at h; simp at h
        | some out =>
            rw [harr] at h
            simp at h
            left
            rw [← h]
            have := arrEncDim_fstLen (convertToBuffer dt) dims v _ out harr
            simp only [zerosBuf_length] at this
            exact this
  | .ENUM defn dt, v, b, h => by
      have hb : byteLength (.ENUM defn dt) = byteLength dt := rfl
      rw [hb]
      cases v with
      | undef => simp [convertToBuffer] at h; right; simp [h]
      | bool bb =>
          simp only [convertToBuffer] at h
          split at h
          · simp at h; right; simp [h]
          · simp at h
      | bignum n =>
          simp only [convertToBuffer] at h
          split at h
          · simp at h; right; simp [h]
          · simp at h
      | num n =>
          simp only [convertToBuffer] at h
          split at h
          · simp at h; right; simp [h]
          · exact encLen dt _ b h
      | real32 bits =>
          simp only [convertToBuffer] at h
          split at h
          · simp at h; right; simp [h]
          · exact encLen dt _ b h
      | real64 bits =>
          simp only [convertToBuffer] at h
          split at h
          · simp at h; right; simp [h]
          · exact encLen dt _ b h
      | str s =>
          simp only [convertToBuffer] at h
          split at h
          · simp at h; right; simp [h]
          · split at h
            · exact encLen dt _ b h
            · simp at h
      | obj fs =>
          simp only [convertToBuffer] at h
          split at h
          · simp at h; right; simp [h]
          · split at h
            · exact encLen dt _ b h
            · split at h
              · split at h
                · split at h
                  · exact encLen dt _ b h
                  · simp at h
                · simp at h
              · simp at h
      | arr es =>
          simp only [convertToBuffer] at h
          split at h
          · simp at h; right; simp [h]
          · split at h
            · exact encLen dt _ b h
            · split at h
              · split at h
                · split at h
                  · exact encLen dt _ b h
                  · simp at h
                · simp at h
              · simp at h
      | enumEntry nm val =>
          simp only [convertToBuffer] at h
          split at h
          · simp at h; right; simp [h]
          · split at h
            · exact encLen dt _ b h
            · split at h
              · split at h
                · split at h
                  · exact encLen dt _ b h
                  · simp at h
                · simp at h
              · simp at h

/-- C7: for every STRING or WSTRING schema and every input text of any
length, encode succeeds and returns a buffer of exactly `byteLength` bytes —
text whose encoding exceeds capacity is silently truncated with no error,
and capacity is never exceeded. -/
theorem c7_string_encode_capacity :
    (∀ (length : Nat) (s : String), ∃ b,
        convertToBuffer (.STRING length) (.str s) = some b ∧
        b.length = byteLength (.STRING length)) ∧
    (∀ (length : Nat) (s : String), ∃ b,
        convertToBuffer (.WSTRING length) (.str s) = some b ∧
        b.length = byteLength (.WSTRING length)) := by
  constructor
  · intro length s
    refine ⟨_, rfl, ?_⟩
    rw [copyInto_length, zerosBuf_length]
    rfl
  · intro length s
    refine ⟨_, rfl, ?_⟩
    rw [copyInto_length, zerosBuf_length]
    rfl

/-! ## STRUCT and UNION encode shape (claims C4, C10) -/

theorem copyInto_nil (tgt : List Nat) (pos : Nat) : copyInto tgt pos [] = tgt := by
  simp [copyInto]

theorem structEnc_eq_flatten : ∀ (cs : Children) (data : IecValue) (buf : List Nat)
    (pos : Nat), structEnc cs data buf pos =
      (childEncs cs data).map fun encs => copyInto buf pos encs.flatten
  | .nil, data, buf, pos => by
      simp [structEnc, childEncs, copyInto_nil]
  | .cons k t rest, data, buf, pos => by
      rw [structEnc, childEncs]
      cases hc : convertToBuffer t (getFieldJS data k) with
      | none => simp
      | some conv =>
          simp only [Option.pure_def, Option.bind_eq_bind, Option.some_bind]
          rw [structEnc_eq_flatten rest data]
          cases ht : childEncs rest data with
          | none => simp
          | some tail =>
              simp [copyInto_append]

theorem bindFoldlAux (cb : Option (List Nat)) (de : Option (List (List Nat)))
    (buf : List Nat) (u : List Nat → Option (List Nat))
    (hu : ∀ conv, u conv =
      Option.map (fun encs => encs.foldl (fun acc e => copyInto acc 0 e) (copyInto buf 0 conv)) de) :
    (do let conv ← cb; u conv) =
      Option.map (fun encs => encs.foldl (fun acc e => copyInto acc 0 e) buf)
        (do let c ← cb; let tail ← de; pure (c :: tail)) := by
  cases cb with
  | none => simp
  | some conv =>
      simp only [Option.pure_def, Option.bind_eq_bind, Option.some_bind, hu conv]
      cases de with
      | none => simp
      | some tail => simp [List.foldl_cons]

theorem unionEnc_eq_foldl : ∀ (cs : Children) (data : IecValue) (buf : List Nat),
    unionEnc cs data buf =
      (definedEncs cs data).map fun encs =>
        encs.foldl (fun acc e => copyInto acc 0 e) buf
  | .nil, data, buf => by
      simp [unionEnc, definedEncs]
  | .cons k t rest, data, buf => by
      rw [unionEnc, definedEncs]
      cases hv : getFieldJS data k
      case undef => exact unionEnc_eq_foldl rest data buf
      all_goals
    exact bindFoldlAux _ _ buf _
      (fun conv => unionEnc_eq_foldl rest data (copyInto buf 0 conv))

theorem foldl_overwrite_length : ∀ (encs : List (List Nat)) (buf : List Nat),
    (encs.foldl (fun acc e => copyInto acc 0 e) buf).length = buf.length
  | [], buf => rfl
  | e :: rest, buf => by
      rw [List.foldl_cons, foldl_overwrite_length rest, copyInto_length]

theorem foldl_overwrite_last : ∀ (encs : List (List Nat)) (buf : List Nat)
    (h : encs ≠ []), (encs.getLast h).length ≤ buf.length →
    (encs.foldl (fun acc e => copyInto acc 0 e) buf).take (encs.getLast h).length =
      encs.getLast h
  | [e], buf, h, hlen => by
      have hl : ([e].getLast h) = e := rfl
      rw [hl] at hlen ⊢
      rw [List.foldl_cons, List.foldl_nil, copyInto_zero_append buf e hlen]
      exact List.take_left ..
  | e :: e1 :: rest, buf, h, hlen => by
      rw [List.foldl_cons]
      have hne : e1 :: rest ≠ [] := by simp
      have hlast : (e :: e1 :: rest).getLast h = (e1 :: rest).getLast hne :=
        List.getLast_cons hne
      rw [hlast] at hlen ⊢
      exact foldl_overwrite_last (e1 :: rest) (copyInto buf 0 e) hne
        (by rw [copyInto_length]; exact hlen)

theorem definedEncs_bound : ∀ (cs : Children) (data : IecValue)
    (encs : List (List Nat)), definedEncs cs data = some encs →
    ∀ e ∈ encs, e.length ≤ specMaxLen cs
  | .nil, data, encs, h => by
      rw [definedEncs] at h
      simp at h
      subst h
      intro e he
      simp at he
  | .cons k t rest, data, encs, h => by
      rw [definedEncs] at h
      intro e he
      have hmono : specMaxLen rest ≤ specMaxLen (.cons k t rest) := by
        simp only [specMaxLen]
        omega
      have hhd : specByteLength t ≤ specMaxLen (.cons k t rest) := by
        simp only [specMaxLen]
        omega
      revert h
      split
      · intro h
        exact le_trans (definedEncs_bound rest data encs h e he) hmono
      · intro h
        cases hc : convertToBuffer t (getFieldJS data k) with
        | none => rw [hc] at h; simp at h
        | some conv =>
            rw [hc] at h
            cases ht : definedEncs rest data with
            | none => rw [ht] at h; simp at h
            | some tail =>
                rw [ht] at h
                simp at h
                subst h
                rcases List.mem_cons.mp he with h1 | h1
                · rw [h1]
                  rcases encLen t (getFieldJS data k) conv hc with hl | hl
                  · rw [hl, byteLength_spec]; exact hhd
                  · omega
                · exact le_trans (definedEncs_bound rest data tail ht e h1) hmono

theorem sliceJS_shift (q X : List Nat) (a b : Nat) :
    sliceJS (q ++ X) (q.length + a) (q.length + b) = sliceJS X a b := by
  simp only [sliceJS, List.drop_append]
  congr 1
  omega

theorem segment_flatten : ∀ (pieces : List (List Nat)) (rest : List Nat) (i : Nat)
    (p : List Nat), pieces[i]? = some p →
    sliceJS (pieces.flatten ++ rest) (sumLens (pieces.take i))
      (sumLens (pieces.take i) + p.length) = p
  | [], _, i, p, h => by simp at h
  | q :: ps, rest, 0, p, h => by
      simp at h
      subst h
      simp only [List.take_zero, sumLens, List.map_nil, List.sum_nil, List.flatten_cons,
        List.append_assoc, sliceJS, List.drop_zero, Nat.zero_add]
      exact List.take_left ..
  | q :: ps, rest, i + 1, p, h => by
      simp only [List.getElem?_cons_succ] at h
      have hsum : sumLens ((q :: ps).take (i + 1)) = q.length + sumLens (ps.take i) := by
        simp [List.take_succ_cons, sumLens]
      rw [hsum, List.flatten_cons, List.append_assoc, Nat.add_assoc, sliceJS_shift]
      exact segment_flatten ps rest i p h

theorem childEncs_prefix_le : ∀ (cs : Children) (data : IecValue)
    (encs : List (List Nat)) (i : Nat), childEncs cs data = some encs →
    sumLens (encs.take i) ≤ ((cs.toList.take i).map fun c => byteLength c.2).sum
  | .nil, data, encs, i, h => by
      rw [childEncs] at h
      simp at h
      subst h
      simp [sumLens]
  | .cons k t rest, data, encs, i, h => by
      rw [childEncs] at h
      cases hc : convertToBuffer t (getFieldJS data k) with
      | none => rw [hc] at h; simp at h
      | some conv =>
          rw [hc] at h
          cases ht : childEncs rest data with
          | none => rw [ht] at h; simp at h
          | some tail =>
              rw [ht] at h
              simp at h
              subst h
              cases i with
              | zero => simp [sumLens]
              | succ i =>
                  simp only [List.take_succ_cons, Children.toList, sumLens, List.map_cons,
                    List.sum_cons]
                  have h1 : conv.length ≤ byteLength t := by
                    rcases encLen t (getFieldJS data k) conv hc with hl | hl <;> omega
                  have h2 := childEncs_prefix_le rest data tail i ht
                  simp only [sumLens] at h2
                  omega

theorem childEncs_flatten_le (cs : Children) (data : IecValue)
    (encs : List (List Nat)) (h : childEncs cs data = some encs) :
    sumLens encs ≤ byteLength (.STRUCT cs) := by
  have h1 := childEncs_prefix_le cs data encs encs.length h
  rw [List.take_length] at h1
  calc sumLens encs ≤ ((cs.toList.take encs.length).map fun c => byteLength c.2).sum := h1
    _ ≤ (cs.toList.map fun c => byteLength c.2).sum := by
        have : ∀ (l : List (String × IecType)) (n : Nat),
            ((l.take n).map fun c => byteLength c.2).sum ≤ (l.map fun c => byteLength c.2).sum := by
          intro l
          induction l with
          | nil => intro n; simp
          | cons a l ih =>
              intro n
              cases n with
              | zero => simp
              | succ n => simp only [List.take_succ_cons, List.map_cons, List.sum_cons]
                          exact Nat.add_le_add_left (ih n) _
        exact this _ _
    _ = byteLength (.STRUCT cs) := (structLen_eq_sum cs).symm

/-- C4 (counterexample): with UNION {a: DINT; b: INT} and both keys provided,
the last defined child (`b`) does not determine the encoded bytes — the
bytes past its two-byte encoding still hold `a`'s earlier write, so the
result differs from what providing only `b` yields. -/
theorem c4_union_counterexample :
    convertToBuffer (.UNION (.cons "a" .DINT (.cons "b" .INT .nil)))
        (.obj [("a", .num (-1)), ("b", .num 0)]) = some [0, 0, 255, 255] ∧
    convertToBuffer (.UNION (.cons "a" .DINT (.cons "b" .INT .nil)))
        (.obj [("b", .num 0)]) = some [0, 0, 0, 0] ∧
    ([0, 0, 255, 255] : List Nat) ≠ [0, 0, 0, 0] :=
  ⟨rfl, rfl, by decide⟩

/-- C4 (amended): UNION encode copies every provided (non-`undefined`)
child's encoding at offset 0 of the output buffer, in declared order, so the
last provided child with a defined value wins on the bytes it writes: the
result's prefix of that encoding's length equals the encoding, the result
always has the union's full byte length, and with no provided keys it is all
zeros. Bytes beyond the last encoding keep earlier children's writes (the
overlapping-storage residue refuting the original wording). -/
theorem c4_union_encode_last_wins (cs : Children) (data : IecValue)
    (encs : List (List Nat)) (htr : truthy data = true)
    (hencs : definedEncs cs data = some encs) :
    ∃ buf, convertToBuffer (.UNION cs) data = some buf ∧
      buf.length = byteLength (.UNION cs) ∧
      (encs = [] → buf = zerosBuf (byteLength (.UNION cs))) ∧
      ∀ h : encs ≠ [],
        buf.take (encs.getLast h).length = encs.getLast h := by
  have hble : byteLength (.UNION cs) = specMaxLen cs := by
    rw [byteLength_spec]
    rfl
  have henc : convertToBuffer (.UNION cs) data =
      some (encs.foldl (fun acc e => copyInto acc 0 e)
        (zerosBuf (byteLength (.UNION cs)))) := by
    rw [convertToBuffer, unionEnc_eq_foldl, hencs]
    simp [htr]
  refine ⟨_, henc, ?_, ?_, ?_⟩
  · rw [foldl_overwrite_length, zerosBuf_length]
  · intro h
    subst h
    rfl
  · intro h
    apply foldl_overwrite_last
    rw [zerosBuf_length, hble]
    exact definedEncs_bound cs data encs hencs _ (List.getLast_mem h)

/-- Witness for C4's amended theorem at UNION {a: DINT; b: INT} with both
keys provided. -/
theorem c4_union_encode_last_wins_witness :
    ∃ buf, convertToBuffer (.UNION (.cons "a" .DINT (.cons "b" .INT .nil)))
        (.obj [("a", .num (-1)), ("b", .num 0)]) = some buf ∧
      buf.length = byteLength (.UNION (.cons "a" .DINT (.cons "b" .INT .nil))) ∧
      (([[255, 255, 255, 255], [0, 0]] : List (List Nat)) = [] →
        buf = zerosBuf (byteLength (.UNION (.cons "a" .DINT (.cons "b" .INT .nil))))) ∧
      ∀ h : ([[255, 255, 255, 255], [0, 0]] : List (List Nat)) ≠ [],
        buf.take (([[255, 255, 255, 255], [0, 0]] : List (List Nat)).getLast h).length =
          ([[255, 255, 255, 255], [0, 0]] : List (List Nat)).getLast h :=
  c4_union_encode_last_wins (.cons "a" .DINT (.cons "b" .INT .nil))
    (.obj [("a", .num (-1)), ("b", .num 0)]) [[255, 255, 255, 255], [0, 0]] rfl rfl

/-- C10 (counterexample): in STRUCT {a: INT; b: INT} with `a` absent, `b` is
still written at its schema offset 2, because the primitive `a` encodes
`undefined` to its full two NaN-zero bytes — refuting the claim's "only when
every earlier child's input value is defined". -/
theorem c10_struct_counterexample :
    getFieldJS (.obj [("b", .num 5)]) "a" = .undef ∧
    convertToBuffer (.STRUCT (.cons "a" .INT (.cons "b" .INT .nil)))
        (.obj [("b", .num 5)]) = some [0, 0, 5, 0] ∧
    sliceJS [0, 0, 5, 0] 2 4 = [5, 0] ∧
    convertToBuffer .INT (.num 5) = some [5, 0] :=
  ⟨rfl, rfl, rfl, rfl⟩

/-- C10 (amended): STRUCT encode advances its write position by the number
of bytes each child's encoding actually produced, not by the child's
declared byte length: the output is the concatenation of the children's
encodings padded with zeros to the struct's byte length, child `i`'s bytes
sit at the sum of the earlier children's actual encoded lengths, and that
actual offset never exceeds the schema offset (each encoding is at most its
declared length; a composite child with an absent value contributes zero
bytes and shifts all later children down, while primitive and string
children always contribute their full length even when absent). -/
theorem c10_struct_offsets (cs : Children) (data : IecValue)
    (encs : List (List Nat)) (htr : truthy data = true)
    (hencs : childEncs cs data = some encs) :
    ∃ buf, convertToBuffer (.STRUCT cs) data = some buf ∧
      buf = encs.flatten ++ zerosBuf (byteLength (.STRUCT cs) - sumLens encs) ∧
      ∀ i p, encs[i]? = some p →
        sliceJS buf (sumLens (encs.take i)) (sumLens (encs.take i) + p.length) = p ∧
        sumLens (encs.take i) ≤ ((cs.toList.take i).map fun c => byteLength c.2).sum := by
  have hflat : encs.flatten.length = sumLens encs := by
    rw [List.length_flatten]
    rfl
  have hle : sumLens encs ≤ byteLength (.STRUCT cs) := childEncs_flatten_le cs data encs hencs
  have henc : convertToBuffer (.STRUCT cs) data =
      some (copyInto (zerosBuf (byteLength (.STRUCT cs))) 0 encs.flatten) := by
    rw [convertToBuffer, structEnc_eq_flatten, hencs]
    simp [htr]
  have hshape : copyInto (zerosBuf (byteLength (.STRUCT cs))) 0 encs.flatten =
      encs.flatten ++ zerosBuf (byteLength (.STRUCT cs) - sumLens encs) := by
    rw [copyInto_zero_append _ _ (by rw [zerosBuf_length, hflat]; exact hle), hflat]
    congr 1
    simp [zerosBuf, List.drop_replicate]
  refine ⟨_, henc, hshape, ?_⟩
  intro i p hp
  constructor
  · rw [hshape]
    exact segment_flatten encs _ i p hp
  · exact childEncs_prefix_le cs data encs i hencs

/-- Witness for C10's amended theorem at STRUCT {s: STRUCT{x: INT}; b: INT}
with the composite child `s` absent: its encoding is empty and `b` lands at
offset 0 instead of its schema offset 2. -/
theorem c10_struct_offsets_witness :
    childEncs (.cons "s" (.STRUCT (.cons "x" .INT .nil)) (.cons "b" .INT .nil))
        (.obj [("b", .num 5)]) = some [[], [5, 0]] ∧
    ∃ buf, convertToBuffer
        (.STRUCT (.cons "s" (.STRUCT (.cons "x" .INT .nil)) (.cons "b" .INT .nil)))
        (.obj [("b", .num 5)]) = some buf ∧
      buf = ([[], [5, 0]] : List (List Nat)).flatten ++
        zerosBuf (byteLength (.STRUCT (.cons "s" (.STRUCT (.cons "x" .INT .nil))
          (.cons "b" .INT .nil))) - sumLens [[], [5, 0]]) ∧
      ∀ i p, ([[], [5, 0]] : List (List Nat))[i]? = some p →
        sliceJS buf (sumLens (([[], [5, 0]] : List (List Nat)).take i))
            (sumLens (([[], [5, 0]] : List (List Nat)).take i) + p.length) = p ∧
        sumLens (([[], [5, 0]] : List (List Nat)).take i) ≤
          ((((Children.cons "s" (.STRUCT (.cons "x" .INT .nil))
            (.cons "b" .INT .nil)).toList.take i).map
              fun c => byteLength c.2).sum) :=
  ⟨rfl, c10_struct_offsets (.cons "s" (.STRUCT (.cons "x" .INT .nil)) (.cons "b" .INT .nil))
    (.obj [("b", .num 5)]) [[], [5, 0]] rfl rfl⟩

/-! ## ENUM encode/decode and iterator evaluations (claims C5, C6, C8) -/

/-- C5 (code bug): ENUM encode of the numeric value 0 falls into the falsy
`!data` guard and returns a zero-length buffer instead of the backing
primitive's encoding of 0; a name/value pair object with a truthy value is
passed whole to the backing write, which coerces it to NaN and stores zeros
instead of the value's encoding. Nonzero bare numerics do encode through the
backing primitive without membership validation. -/
theorem c5_enum_encode_bug :
    convertToBuffer (.ENUM [("a", 1)] .INT) (.num 0) = some [] ∧
    convertToBuffer .INT (.num 0) = some [0, 0] ∧
    convertToBuffer (.ENUM [("a", 1)] .INT) (.enumEntry (some "a") (.num 1)) =
      some [0, 0] ∧
    convertToBuffer .INT (.num 1) = some [1, 0] ∧
    convertToBuffer (.ENUM [("a", 1)] .INT) (.num 5) = some [5, 0] ∧
    convertToBuffer (.ENUM [("a", 1)] .INT) (.num 7) = some [7, 0] :=
  ⟨rfl, rfl, rfl, rfl, rfl, rfl⟩

/-- C6: ENUM decode reads the backing value and returns the first declared
entry with that value, or `{name: undefined, value}` (never an error) when
no declared entry matches. -/
theorem c6_enum_decode (defn : List (String × Int)) (dt : IecType) (buf : List Nat)
    (v : Int) (hdec : convertFromBuffer dt buf = some (.num v)) :
    convertFromBuffer (.ENUM defn dt) buf =
      some (match defn.find? fun e => v == e.2 with
        | some e => .enumEntry (some e.1) (.num v)
        | none => .enumEntry none (.num v)) := by
  rw [convertFromBuffer, hdec]
  simp only [Option.map_some']
  cases hf : defn.find? fun e => v == e.2 with
  | some e => simp [findEnumEntryByValue, hf]
  | none => simp [findEnumEntryByValue, hf]

/-- Witness for C6 at ENUM {a := 1} over INT and the buffer `[7, 0]`, whose
backing value 7 matches no entry. -/
theorem c6_enum_decode_witness :
    convertFromBuffer (.ENUM [("a", 1)] .INT) [7, 0] =
      some (match [("a", (1 : Int))].find? fun e => (7 : Int) == e.2 with
        | some e => .enumEntry (some e.1) (.num 7)
        | none => .enumEntry none (.num 7)) :=
  c6_enum_decode [("a", 1)] .INT [7, 0] 7 rfl

/-- C8 (code bug): on STRUCT {u: UNION {a: INT; b: DINT}; x: INT} the field
iterator yields the union's children at the sequentially advancing cursor
(`b` at 2, `x` at 6, final cursor 8) although the codec's layout — visible
in `convertFromBuffer`, which reads every union child from offset 0 and `x`
from offset 4 — places `b` at 0 and `x` at 4 in a 6-byte struct. -/
theorem c8_iterator_union_bug :
    variableIterator (.STRUCT (.cons "u" (.UNION (.cons "a" .INT (.cons "b" .DINT .nil)))
        (.cons "x" .INT .nil))) =
      [⟨some "a", 0, .INT⟩, ⟨some "b", 2, .DINT⟩, ⟨some "x", 6, .INT⟩] ∧
    (iterate (.STRUCT (.cons "u" (.UNION (.cons "a" .INT (.cons "b" .DINT .nil)))
        (.cons "x" .INT .nil))) 0).2 = 8 ∧
    byteLength (.STRUCT (.cons "u" (.UNION (.cons "a" .INT (.cons "b" .DINT .nil)))
        (.cons "x" .INT .nil))) = 6 ∧
    convertFromBuffer (.STRUCT (.cons "u" (.UNION (.cons "a" .INT (.cons "b" .DINT .nil)))
        (.cons "x" .INT .nil))) [9, 0, 0, 0, 7, 0] =
      some (.obj [("u", .obj [("a", .num 9), ("b", .num 9)]), ("x", .num 7)]) :=
  ⟨rfl, rfl, rfl, rfl⟩

/-! ## Loop induction and zero-buffer facts (claims C2, C9) -/

theorem jsLoop_ind {s : Type} (step : Nat → s → Option s) (bound : Nat)
    (Q : Nat → s → Prop)
    (hstep : ∀ i st, i < bound → Q i st →
      ∃ st1, step i st = some st1 ∧ Q (i + 1) st1) :
    ∀ (k i : Nat) (st : s), i + k ≤ bound → Q i st →
      ∃ out, jsLoop step k i st = some out ∧ Q (i + k) out
  | 0, i, st, hb, hq => ⟨st, by simp [jsLoop], by simpa using hq⟩
  | k + 1, i, st, hb, hq => by
      obtain ⟨st1, hs, hq1⟩ := hstep i st (by omega) hq
      obtain ⟨out, ho, hqo⟩ := jsLoop_ind step bound Q hstep k (i + 1) st1 (by omega) hq1
      refine ⟨out, ?_, ?_⟩
      · rw [jsLoop, hs]
        simpa using ho
      · have he : i + 1 + k = i + (k + 1) := by omega
        rw [← he]
        exact hqo

theorem natToBytesLE_zero : ∀ w, natToBytesLE w 0 = List.replicate w 0
  | 0 => rfl
  | w + 1 => by simp [natToBytesLE, natToBytesLE_zero w, List.replicate_succ]

theorem bytesToNatLE_zeros : ∀ n, bytesToNatLE (List.replicate n 0) = 0
  | 0 => rfl
  | n + 1 => by simp [List.replicate_succ, bytesToNatLE, bytesToNatLE_zeros n]

theorem copyInto_zeros (n pos m : Nat) :
    copyInto (zerosBuf n) pos (zerosBuf m) = zerosBuf n := by
  apply listExtLen (by rw [copyInto_length])
  intro i hi
  rw [copyInto_length, zerosBuf_length] at hi
  rw [copyInto_getElem? _ _ _ _ (by rw [zerosBuf_length]; exact hi)]
  simp only [zerosBuf, List.getElem?_replicate, List.length_replicate]
  split_ifs <;> first | rfl | (exfalso; omega)

theorem sliceJS_zeros (n a b : Nat) :
    sliceJS (zerosBuf n) a b = zerosBuf (min (b - a) (n - a)) := by
  simp [sliceJS, zerosBuf, List.drop_replicate, List.take_replicate]

/-- Node's integer writes of the number 0 produce all zeros, for every
width. -/
theorem writeIntLE_zero (w : Nat) (signed : Bool) :
    writeIntLE w signed (.num 0) = some (zerosBuf w) := by
  unfold writeIntLE
  simp only [toNumberForWrite]
  have hp1 : (0 : Int) < 2 ^ (8 * w) := pow_pos (by norm_num) _
  have hp2 : (0 : Int) < 2 ^ (8 * w - 1) := pow_pos (by norm_num) _
  have h1 : ¬((0 : Int) > (if signed = true then 2 ^ (8 * w - 1) - 1 else 2 ^ (8 * w) - 1) ∨
      (0 : Int) < (if signed = true then -(2 ^ (8 * w - 1)) else 0)) := by
    cases signed <;> simp <;> omega
  rw [if_neg h1]
  rw [show ((0 : Int) % ((256 ^ w : Nat) : Int)).toNat = 0 by simp, natToBytesLE_zero]
  rfl

/-- Node's integer reads of an all-zero region produce 0, for every positive
width that fits the buffer. -/
theorem readIntLE_zeros (w : Nat) (signed : Bool) (n : Nat) (hw : 0 < w) (h : w ≤ n) :
    readIntLE w signed (zerosBuf n) = some 0 := by
  have h1 : readUIntLE w (zerosBuf n) = some 0 := by
    unfold readUIntLE
    rw [if_neg (by rw [zerosBuf_length]; omega)]
    simp [zerosBuf, List.take_replicate, min_eq_left h, bytesToNatLE_zeros]
  unfold readIntLE
  rw [h1, Option.map_some']
  congr 1
  have h2 : 256 / 2 ≤ 256 ^ w / 2 :=
    Nat.div_le_div_right (Nat.le_self_pow (by omega) 256)
  rw [if_neg (by intro hc; omega)]
  simp

/-! ## Default values and zero buffers (claim C9) -/

theorem readUIntLE_zeros (w n : Nat) (h : w ≤ n) : readUIntLE w (zerosBuf n) = some 0 := by
  unfold readUIntLE
  rw [if_neg (by rw [zerosBuf_length]; omega)]
  simp [zerosBuf, List.take_replicate, min_eq_left h, bytesToNatLE_zeros]

theorem readMap_zeros (w : Nat) (signed : Bool) (n : Nat) (hw : 0 < w) (hn : w ≤ n) :
    (readIntLE w signed (zerosBuf n)).map IecValue.num = some (.num 0) := by
  rw [readIntLE_zeros w signed n hw hn]
  rfl

/-- Every 1-, 2- or 4-byte integer codec maps the number 0 to an all-zero
buffer. -/
theorem smallInt_enc_zero (dt : IecType) (hk : isSmallIntKind dt = true) :
    convertToBuffer dt (.num 0) = some (zerosBuf (byteLength dt)) := by
  cases dt <;> simp [isSmallIntKind] at hk
  all_goals first
    | exact writeIntLE_zero 1 false
    | exact writeIntLE_zero 1 true
    | exact writeIntLE_zero 2 false
    | exact writeIntLE_zero 2 true
    | exact writeIntLE_zero 4 false

/-- Every 1-, 2- or 4-byte integer codec decodes an all-zero buffer to the
number 0. -/
theorem smallInt_dec_zeros (dt : IecType) (hk : isSmallIntKind dt = true)
    (n : Nat) (hn : byteLength dt ≤ n) :
    convertFromBuffer dt (zerosBuf n) = some (.num 0) := by
  cases dt <;> simp [isSmallIntKind] at hk
  all_goals first
    | exact readMap_zeros 1 false n (by omega) hn
    | exact readMap_zeros 1 true n (by omega) hn
    | exact readMap_zeros 2 false n (by omega) hn
    | exact readMap_zeros 2 true n (by omega) hn
    | exact readMap_zeros 4 false n (by omega) hn
    | exact readMap_zeros 4 true n (by omega) hn

theorem getDefault_ne_undef (t : IecType) : getDefault t ≠ .undef := by
  cases t <;> try simp [getDefault]
  case ENUM defn dt => cases defn <;> simp [getDefault, findEnumEntryByValue]

theorem mem_childNames : ∀ (cs : Children) (p : String × IecType),
    p ∈ cs.toList → p.1 ∈ childNames cs
  | .nil, p, hp => by simp [Children.toList] at hp
  | .cons k t rest, p, hp => by
      simp only [Children.toList, List.mem_cons] at hp
      rcases hp with h | h
      · subst h
        simp [childNames]
      · simp only [childNames, List.mem_cons]
        exact Or.inr (mem_childNames rest p h)

theorem goodDefaultFields_mem : ∀ (cs : Children) (p : String × IecType),
    goodDefaultFields cs = true → p ∈ cs.toList → goodDefault p.2 = true
  | .nil, p, _, hp => by simp [Children.toList] at hp
  | .cons k t rest, p, hg, hp => by
      rw [goodDefaultFields, Bool.and_eq_true] at hg
      simp only [Children.toList, List.mem_cons] at hp
      rcases hp with h | h
      · subst h
        exact hg.1
      · exact goodDefaultFields_mem rest p hg.2 h

theorem getFieldJS_obj_head (k : String) (v : IecValue) (fs : List (String × IecValue)) :
    getFieldJS (.obj ((k, v) :: fs)) k = v := by
  simp only [getFieldJS]
  rw [List.find?_cons_of_pos _ (by simp)]

theorem getFieldJS_obj_tail (k k1 : String) (v : IecValue) (fs : List (String × IecValue))
    (h : k ≠ k1) :
    getFieldJS (.obj ((k, v) :: fs)) k1 = getFieldJS (.obj fs) k1 := by
  simp only [getFieldJS]
  rw [List.find?_cons_of_neg _ (by simp [h])]

/-- With duplicate-free child names, looking a declared child up in the
default object yields that child's own default. -/
theorem getFieldJS_defaults : ∀ (cs : Children), (childNames cs).Nodup →
    ∀ p, p ∈ cs.toList → getFieldJS (.obj (defaultFields cs)) p.1 = getDefault p.2
  | .nil, _, p, hp => by simp [Children.toList] at hp
  | .cons k t rest, hnd, p, hp => by
      simp only [childNames, List.nodup_cons] at hnd
      simp only [Children.toList, List.mem_cons] at hp
      simp only [defaultFields]
      rcases hp with h | h
      · subst h
        exact getFieldJS_obj_head k (getDefault t) (defaultFields rest)
      · have hne : k ≠ p.1 := fun he => hnd.1 (he ▸ mem_childNames rest p h)
        rw [getFieldJS_obj_tail k p.1 (getDefault t) (defaultFields rest) hne]
        exact getFieldJS_defaults rest hnd.2 p h

/-- The UNION encode loop's step on a child whose input is not strictly
`undefined`. -/
theorem unionEnc_cons_ne (k : String) (t : IecType) (rest : Children) (data : IecValue)
    (buf : List Nat) (h : getFieldJS data k ≠ .undef) :
    unionEnc (.cons k t rest) data buf =
      (convertToBuffer t (getFieldJS data k)).bind fun conv =>
        unionEnc rest data (copyInto buf 0 conv) := by
  rw [unionEnc]
  cases hv : getFieldJS data k
  case undef => exact absurd hv h
  all_goals rfl

theorem takeWhile_replicate_stop {α : Type} (p : α → Bool) (c : α) (hc : p c = false) :
    ∀ n, (List.replicate n c).takeWhile p = []
  | 0 => rfl
  | n + 1 => by simp [List.replicate_succ, List.takeWhile_cons, hc]

theorem trimPlcString_data (l : List Char) :
    trimPlcString ⟨l⟩ = ⟨l.takeWhile (fun c => c.toNat ≠ 0)⟩ := rfl

theorem trim_zeros_cp1252 (n : Nat) : trimPlcString (cp1252Str (zerosBuf n)) = "" := by
  rw [show cp1252Str (zerosBuf n) = ⟨List.replicate n (Char.ofNat 0)⟩ from by
    simp [cp1252Str, zerosBuf, List.map_replicate]]
  rw [trimPlcString_data, takeWhile_replicate_stop _ _ (by decide)]

theorem ucs2Chars_zeros : ∀ n, ucs2Chars (List.replicate n 0) = List.replicate (n / 2) (Char.ofNat 0)
  | 0 => rfl
  | 1 => rfl
  | n + 2 => by
      have h2 : (n + 2) / 2 = n / 2 + 1 := by omega
      simp [List.replicate_succ, ucs2Chars, ucs2Chars_zeros n, h2]

theorem trim_zeros_ucs2 (n : Nat) : trimPlcString ⟨ucs2Chars (zerosBuf n)⟩ = "" := by
  rw [show (zerosBuf n : List Nat) = List.replicate n 0 from rfl, ucs2Chars_zeros,
    trimPlcString_data, takeWhile_replicate_stop _ _ (by decide)]

theorem countElems_le_prod : ∀ (dims : List Nat), (∀ d ∈ dims, 0 < d) →
    countElems dims ≤ dims.prod
  | [], _ => by simp [countElems]
  | d :: rest, hpos => by
      have hprod : 0 < rest.prod :=
        List.prod_pos fun x hx => hpos x (List.mem_cons_of_mem d hx)
      have hrec := countElems_le_prod rest fun x hx => hpos x (List.mem_cons_of_mem d hx)
      simp only [countElems, List.prod_cons]
      split
      · exact Nat.mul_le_mul_left d hrec
      · exact Nat.le_mul_of_pos_right d hprod

/-- The ARRAY encode walk over an all-zero target stays all zeros when the
element encoder sends the element default to an all-zero buffer. -/
theorem arrEncDim_zeros (enc : IecValue → Option (List Nat)) (elemDefault : IecValue)
    (L : Nat) (henc : enc elemDefault = some (zerosBuf L)) :
    ∀ (dims : List Nat), (∀ d ∈ dims, 0 < d) → ∀ (N pos : Nat),
      ∃ p2, arrEncDim enc dims (.arr (arrDefaultDim elemDefault dims)) (zerosBuf N, pos) =
        some (zerosBuf N, p2)
  | [], _, N, pos => ⟨pos, rfl⟩
  | [d], _, N, pos => by
      obtain ⟨out, ho, hq⟩ := jsLoop_ind
        (fun i st' => do
          let x ← indexJS (.arr (arrDefaultDim elemDefault [d])) i
          if nextDimTruthy ([] : List Nat) then arrEncDim enc [] x st'
          else do
            let conv ← enc x
            pure (copyInto st'.1 st'.2 conv, st'.2 + conv.length))
        d (fun _ st => st.1 = zerosBuf N)
        (by
          intro i st hi hq
          obtain ⟨b, p⟩ := st
          have hb : b = zerosBuf N := hq
          subst hb
          have hidx : indexJS (.arr (arrDefaultDim elemDefault [d])) i = some elemDefault := by
            simp only [indexJS, arrDefaultDim, Option.some.injEq]
            simp [List.getD, List.getElem?_map, List.getElem?_range, hi, nextDimTruthy]
          refine ⟨(copyInto (zerosBuf N) p (zerosBuf L), p + (zerosBuf L).length), ?_, ?_⟩
          · simp only []
            rw [hidx]
            simp [nextDimTruthy, henc]
          · simp [copyInto_zeros])
        d 0 (zerosBuf N, pos) (by omega) rfl
      obtain ⟨b, p2⟩ := out
      have hb : b = zerosBuf N := hq
      subst hb
      exact ⟨p2, ho⟩
  | d :: r :: rest, hpos, N, pos => by
      have hr : nextDimTruthy (r :: rest) = true := by
        have h0 := hpos r (by simp)
        simp [nextDimTruthy]
        omega
      obtain ⟨out, ho, hq⟩ := jsLoop_ind
        (fun i st' => do
          let x ← indexJS (.arr (arrDefaultDim elemDefault (d :: r :: rest))) i
          if nextDimTruthy (r :: rest) then arrEncDim enc (r :: rest) x st'
          else do
            let conv ← enc x
            pure (copyInto st'.1 st'.2 conv, st'.2 + conv.length))
        d (fun _ st => st.1 = zerosBuf N)
        (by
          intro i st hi hq
          obtain ⟨b, p⟩ := st
          have hb : b = zerosBuf N := hq
          subst hb
          have hidx : indexJS (.arr (arrDefaultDim elemDefault (d :: r :: rest))) i =
              some (.arr (arrDefaultDim elemDefault (r :: rest))) := by
            simp only [indexJS, arrDefaultDim, Option.some.injEq]
            simp [List.getD, List.getElem?_map, List.getElem?_range, hi, hr]
          obtain ⟨p2, hrec⟩ := arrEncDim_zeros enc elemDefault L henc (r :: rest)
            (fun x hx => hpos x (List.mem_cons_of_mem d hx)) N p
          refine ⟨(zerosBuf N, p2), ?_, rfl⟩
          simp only []
          rw [hidx]
          simp only [Option.bind_eq_bind, Option.some_bind, hr, if_true]
          exact hrec)
        d 0 (zerosBuf N, pos) (by omega) rfl
      obtain ⟨b, p2⟩ := out
      have hb : b = zerosBuf N := hq
      subst hb
      exact ⟨p2, ho⟩


/-- The ARRAY decode walk over an all-zero buffer yields the nested default
layout when the element decoder reads the element default off an all-zero
region, advancing exactly `countElems · elemLen` bytes. -/
theorem arrDecDim_zeros (dec : List Nat → Option IecValue) (elemLen : Nat)
    (elemDefault : IecValue) (hdec : dec (zerosBuf elemLen) = some elemDefault) :
    ∀ (dims : List Nat), (∀ d ∈ dims, 0 < d) → ∀ (N pos : Nat),
      pos + countElems dims * elemLen ≤ N →
      arrDecDim dec elemLen dims (zerosBuf N) pos =
        some (arrDefaultDim elemDefault dims, pos + countElems dims * elemLen)
  | [], _, N, pos, _ => by simp [arrDecDim, countElems, arrDefaultDim]
  | [d], _, N, pos, hb => by
      have hc : countElems [d] = d := by simp [countElems, nextDimTruthy]
      rw [hc] at hb ⊢
      obtain ⟨out, ho, hq⟩ := jsLoop_ind
        (fun _i (st : List IecValue × Nat) => do
          if nextDimTruthy ([] : List Nat) then
            let (sub, p) ← arrDecDim dec elemLen [] (zerosBuf N) st.2
            pure (st.1 ++ [IecValue.arr sub], p)
          else do
            let v ← dec (sliceJS (zerosBuf N) st.2 (st.2 + elemLen))
            pure (st.1 ++ [v], st.2 + elemLen))
        d (fun i st => st.1 = (arrDefaultDim elemDefault [d]).take i ∧ st.2 = pos + i * elemLen)
        (by
          intro i st hi hq
          obtain ⟨acc, p⟩ := st
          have h1 : acc = (arrDefaultDim elemDefault [d]).take i := hq.1
          have h2 : p = pos + i * elemLen := hq.2
          subst h1 h2
          have hple : pos + i * elemLen + elemLen ≤ N := by
            have h3 : (i + 1) * elemLen ≤ d * elemLen := Nat.mul_le_mul_right _ hi
            have h4 : pos + i * elemLen + elemLen = pos + (i + 1) * elemLen := by ring
            omega
          have hslice : sliceJS (zerosBuf N) (pos + i * elemLen)
              (pos + i * elemLen + elemLen) = zerosBuf elemLen := by
            rw [sliceJS_zeros]
            congr 1
            omega
          refine ⟨((arrDefaultDim elemDefault [d]).take i ++ [elemDefault],
            pos + i * elemLen + elemLen), ?_, ?_, ?_⟩
          · simp [nextDimTruthy, hslice, hdec]
          · rw [List.take_succ]
            simp [arrDefaultDim, List.getElem?_map, List.getElem?_range, hi, nextDimTruthy]
          · ring)
        d 0 ([], pos) (by omega) ⟨rfl, by simp⟩
      obtain ⟨acc, p2⟩ := out
      have h1 : acc = (arrDefaultDim elemDefault [d]).take (0 + d) := hq.1
      have h2 : p2 = pos + (0 + d) * elemLen := hq.2
      subst h1 h2
      have hfull : (arrDefaultDim elemDefault [d]).take d = arrDefaultDim elemDefault [d] := by
        apply List.take_of_length_le
        simp [arrDefaultDim]
      have hout : (((arrDefaultDim elemDefault [d]).take (0 + d),
          pos + (0 + d) * elemLen) : List IecValue × Nat) =
          (arrDefaultDim elemDefault [d], pos + d * elemLen) := by
        rw [Prod.mk.injEq]
        constructor
        · rw [Nat.zero_add]
          exact hfull
        · ring
      exact ho.trans (congrArg some hout)
  | d :: r :: rest, hpos, N, pos, hb => by
      have hr : nextDimTruthy (r :: rest) = true := by
        have h0 := hpos r (by simp)
        simp [nextDimTruthy]
        omega
      have hc : countElems (d :: r :: rest) = d * countElems (r :: rest) := by
        simp [countElems, hr]
      rw [hc] at hb ⊢
      obtain ⟨out, ho, hq⟩ := jsLoop_ind
        (fun _i (st : List IecValue × Nat) => do
          if nextDimTruthy (r :: rest) then
            let (sub, p) ← arrDecDim dec elemLen (r :: rest) (zerosBuf N) st.2
            pure (st.1 ++ [IecValue.arr sub], p)
          else do
            let v ← dec (sliceJS (zerosBuf N) st.2 (st.2 + elemLen))
            pure (st.1 ++ [v], st.2 + elemLen))
        d (fun i st => st.1 = (arrDefaultDim elemDefault (d :: r :: rest)).take i ∧
            st.2 = pos + i * (countElems (r :: rest) * elemLen))
        (by
          intro i st hi hq
          obtain ⟨acc, p⟩ := st
          have h1 : acc = (arrDefaultDim elemDefault (d :: r :: rest)).take i := hq.1
          have h2 : p = pos + i * (countElems (r :: rest) * elemLen) := hq.2
          subst h1 h2
          have hrecb : pos + i * (countElems (r :: rest) * elemLen) +
              countElems (r :: rest) * elemLen ≤ N := by
            have h3 : (i + 1) * (countElems (r :: rest) * elemLen) ≤
                d * (countElems (r :: rest) * elemLen) := Nat.mul_le_mul_right _ hi
            have h4 : pos + i * (countElems (r :: rest) * elemLen) +
                countElems (r :: rest) * elemLen =
                pos + (i + 1) * (countElems (r :: rest) * elemLen) := by ring
            have h5 : pos + d * countElems (r :: rest) * elemLen =
                pos + d * (countElems (r :: rest) * elemLen) := by ring
            omega
          have hrec := arrDecDim_zeros dec elemLen elemDefault hdec (r :: rest)
            (fun x hx => hpos x (List.mem_cons_of_mem d hx)) N
            (pos + i * (countElems (r :: rest) * elemLen)) hrecb
          refine ⟨((arrDefaultDim elemDefault (d :: r :: rest)).take i ++
            [IecValue.arr (arrDefaultDim elemDefault (r :: rest))],
            pos + i * (countElems (r :: rest) * elemLen) +
              countElems (r :: rest) * elemLen), ?_, ?_, ?_⟩
          · simp only [hr, if_true, hrec, Option.pure_def, Option.bind_eq_bind,
              Option.some_bind]
          · rw [List.take_succ]
            simp [arrDefaultDim, List.getElem?_map, List.getElem?_range, hi, hr]
          · ring)
        d 0 ([], pos) (by omega) ⟨rfl, by simp⟩
      obtain ⟨acc, p2⟩ := out
      have h1 : acc = (arrDefaultDim elemDefault (d :: r :: rest)).take (0 + d) := hq.1
      have h2 : p2 = pos + (0 + d) * (countElems (r :: rest) * elemLen) := hq.2
      subst h1 h2
      have hfull : (arrDefaultDim elemDefault (d :: r :: rest)).take d =
          arrDefaultDim elemDefault (d :: r :: rest) := by
        apply List.take_of_length_le
        simp [arrDefaultDim]
      have hout : (((arrDefaultDim elemDefault (d :: r :: rest)).take (0 + d),
          pos + (0 + d) * (countElems (r :: rest) * elemLen)) : List IecValue × Nat) =
          (arrDefaultDim elemDefault (d :: r :: rest),
            pos + d * countElems (r :: rest) * elemLen) := by
        rw [Prod.mk.injEq]
        constructor
        · rw [Nat.zero_add]
          exact hfull
        · ring
      exact ho.trans (congrArg some hout)

mutual
/-- On the `goodDefault` domain, encoding a schema's own default produces an
all-zero buffer of exactly the declared byte length. -/
theorem defaultEncZeros : ∀ t : IecType, goodDefault t = true →
    convertToBuffer t (getDefault t) = some (zerosBuf (byteLength t))
  | .BOOL, _ => rfl
  | .USINT, _ => writeIntLE_zero 1 false
  | .BYTE, _ => writeIntLE_zero 1 false
  | .SINT, _ => writeIntLE_zero 1 true
  | .UINT, _ => writeIntLE_zero 2 false
  | .WORD, _ => writeIntLE_zero 2 false
  | .INT, _ => writeIntLE_zero 2 true
  | .DINT, _ => writeIntLE_zero 4 true
  | .UDINT, _ => writeIntLE_zero 4 false
  | .DWORD, _ => writeIntLE_zero 4 false
  | .TIME, _ => writeIntLE_zero 4 false
  | .TOD, _ => writeIntLE_zero 4 false
  | .TIME_OF_DAY, _ => writeIntLE_zero 4 false
  | .DT, _ => writeIntLE_zero 4 false
  | .DATE_AND_TIME, _ => writeIntLE_zero 4 false
  | .DATE, _ => writeIntLE_zero 4 false
  | .REAL, _ => by
      show some (natToBytesLE 4 0) = some (zerosBuf 4)
      rw [natToBytesLE_zero]
      rfl
  | .LREAL, _ => by
      show some (natToBytesLE 8 0) = some (zerosBuf 8)
      rw [natToBytesLE_zero]
      rfl
  | .ULINT, h => nomatch h
  | .LWORD, h => nomatch h
  | .LINT, h => nomatch h
  | .STRING len, _ => by
      show some (copyInto (zerosBuf (len + 1)) 0 (cp1252Bytes (jsStrOf (.str "")))) =
        some (zerosBuf (len + 1))
      rw [show cp1252Bytes (jsStrOf (.str "")) = [] from rfl, copyInto_nil]
  | .WSTRING len, _ => by
      show some (copyInto (zerosBuf (len * 2 + 2)) 0 (ucs2Bytes (jsStrOf (.str "")).data)) =
        some (zerosBuf (len * 2 + 2))
      rw [show ucs2Bytes (jsStrOf (.str "")).data = [] from rfl, copyInto_nil]
  | .STRUCT cs, h => by
      simp only [goodDefault, Bool.and_eq_true, decide_eq_true_eq] at h
      show structEnc cs (.obj (defaultFields cs)) (zerosBuf (byteLength (.STRUCT cs))) 0 =
        some (zerosBuf (byteLength (.STRUCT cs)))
      exact structEncDefaultZeros cs (.obj (defaultFields cs)) (byteLength (.STRUCT cs)) 0
        (getFieldJS_defaults cs h.1) (fun p hp => goodDefaultFields_mem cs p h.2 hp)
  | .UNION cs, h => by
      simp only [goodDefault, Bool.and_eq_true, decide_eq_true_eq] at h
      show unionEnc cs (.obj (defaultFields cs)) (zerosBuf (byteLength (.UNION cs))) =
        some (zerosBuf (byteLength (.UNION cs)))
      exact unionEncDefaultZeros cs (.obj (defaultFields cs)) (byteLength (.UNION cs))
        (getFieldJS_defaults cs h.1) (fun p hp => goodDefaultFields_mem cs p h.2 hp)
  | .ARRAY dt dims, h => by
      simp only [goodDefault, Bool.and_eq_true] at h
      obtain ⟨hg, hdims⟩ := h
      have hpos : ∀ d ∈ dims, 0 < d := by
        simp only [Bool.or_eq_true] at hdims
        rcases hdims with he | ha
        · intro d hd
          rw [List.isEmpty_iff] at he
          subst he
          simp at hd
        · intro d hd
          simpa using List.all_eq_true.mp ha d hd
      obtain ⟨p2, hp⟩ := arrEncDim_zeros (convertToBuffer dt) (getDefault dt) (byteLength dt)
        (defaultEncZeros dt hg) dims hpos (byteLength (.ARRAY dt dims)) 0
      show (arrEncDim (convertToBuffer dt) dims (.arr (arrDefaultDim (getDefault dt) dims))
          (zerosBuf (byteLength (.ARRAY dt dims)), 0)).map Prod.fst =
        some (zerosBuf (byteLength (.ARRAY dt dims)))
      rw [hp]
      rfl
  | .ENUM defn dt, h => by
      cases defn with
      | nil => simp [goodDefault] at h
      | cons hd tl =>
          obtain ⟨k0, v0⟩ := hd
          simp only [goodDefault, Bool.and_eq_true, beq_iff_eq, bne_iff_ne, ne_eq] at h
          obtain ⟨⟨hv, hk0⟩, hsm⟩ := h
          subst hv
          have hfind : ((k0, (0 : Int)) :: tl).find? (fun e => lowerStr e.1 == lowerStr k0) =
              some (k0, 0) := by
            rw [List.find?_cons_of_pos]
            simp
          have hgd : getDefault (.ENUM ((k0, (0 : Int)) :: tl) dt) =
              .enumEntry (some k0) (.num 0) := rfl
          rw [hgd]
          simp only [convertToBuffer, truthy, getFieldJS]
          simp [hfind, hk0, smallInt_enc_zero dt hsm]
          rfl
/-- The STRUCT encode loop over an all-zero target stays all zeros when every
child's input is its own default and every child is on the good domain. -/
theorem structEncDefaultZeros : ∀ (cs : Children) (data : IecValue) (N pos : Nat),
    (∀ p ∈ cs.toList, getFieldJS data p.1 = getDefault p.2) →
    (∀ p ∈ cs.toList, goodDefault p.2 = true) →
    structEnc cs data (zerosBuf N) pos = some (zerosBuf N)
  | .nil, _, _, _, _, _ => rfl
  | .cons k t rest, data, N, pos, hlook, hgood => by
      rw [structEnc]
      have h1 : getFieldJS data k = getDefault t := hlook (k, t) (by simp [Children.toList])
      rw [h1, defaultEncZeros t (hgood (k, t) (by simp [Children.toList]))]
      simp only [Option.pure_def, Option.bind_eq_bind, Option.some_bind]
      rw [copyInto_zeros]
      exact structEncDefaultZeros rest data N (pos + (zerosBuf (byteLength t)).length)
        (fun p hp => hlook p (by simp only [Children.toList, List.mem_cons]; exact Or.inr hp))
        (fun p hp => hgood p (by simp only [Children.toList, List.mem_cons]; exact Or.inr hp))
/-- The UNION encode loop over an all-zero target stays all zeros likewise
(every child's default is defined, so every child is visited and overwrites
offset 0 with zeros). -/
theorem unionEncDefaultZeros : ∀ (cs : Children) (data : IecValue) (N : Nat),
    (∀ p ∈ cs.toList, getFieldJS data p.1 = getDefault p.2) →
    (∀ p ∈ cs.toList, goodDefault p.2 = true) →
    unionEnc cs data (zerosBuf N) = some (zerosBuf N)
  | .nil, _, _, _, _ => rfl
  | .cons k t rest, data, N, hlook, hgood => by
      have h1 : getFieldJS data k = getDefault t := hlook (k, t) (by simp [Children.toList])
      have hne : getFieldJS data k ≠ .undef := by
        rw [h1]
        exact getDefault_ne_undef t
      rw [unionEnc_cons_ne k t rest data (zerosBuf N) hne, h1,
        defaultEncZeros t (hgood (k, t) (by simp [Children.toList]))]
      simp only [Option.some_bind]
      rw [copyInto_zeros]
      exact unionEncDefaultZeros rest data N
        (fun p hp => hlook p (by simp only [Children.toList, List.mem_cons]; exact Or.inr hp))
        (fun p hp => hgood p (by simp only [Children.toList, List.mem_cons]; exact Or.inr hp))
end

mutual
/-- On the `goodDefault` domain, decoding an all-zero buffer of at least the
declared byte length reproduces the schema's own default value. -/
theorem defaultDecZeros : ∀ t : IecType, goodDefault t = true →
    ∀ n : Nat, byteLength t ≤ n → convertFromBuffer t (zerosBuf n) = some (getDefault t)
  | .BOOL, _, n, hn => by
      simp only [convertFromBuffer]
      rw [readUIntLE_zeros 1 n hn]
      rfl
  | .USINT, _, n, hn => readMap_zeros 1 false n (by omega) hn
  | .BYTE, _, n, hn => readMap_zeros 1 false n (by omega) hn
  | .SINT, _, n, hn => readMap_zeros 1 true n (by omega) hn
  | .UINT, _, n, hn => readMap_zeros 2 false n (by omega) hn
  | .WORD, _, n, hn => readMap_zeros 2 false n (by omega) hn
  | .INT, _, n, hn => readMap_zeros 2 true n (by omega) hn
  | .DINT, _, n, hn => readMap_zeros 4 true n (by omega) hn
  | .UDINT, _, n, hn => readMap_zeros 4 false n (by omega) hn
  | .DWORD, _, n, hn => readMap_zeros 4 false n (by omega) hn
  | .TIME, _, n, hn => readMap_zeros 4 false n (by omega) hn
  | .TOD, _, n, hn => readMap_zeros 4 false n (by omega) hn
  | .TIME_OF_DAY, _, n, hn => readMap_zeros 4 false n (by omega) hn
  | .DT, _, n, hn => readMap_zeros 4 false n (by omega) hn
  | .DATE_AND_TIME, _, n, hn => readMap_zeros 4 false n (by omega) hn
  | .DATE, _, n, hn => readMap_zeros 4 false n (by omega) hn
  | .REAL, _, n, hn => by
      simp only [convertFromBuffer]
      rw [readUIntLE_zeros 4 n hn]
      rfl
  | .LREAL, _, n, hn => by
      simp only [convertFromBuffer]
      rw [readUIntLE_zeros 8 n hn]
      rfl
  | .ULINT, h, _, _ => nomatch h
  | .LWORD, h, _, _ => nomatch h
  | .LINT, h, _, _ => nomatch h
  | .STRING len, _, n, _ => by
      simp only [convertFromBuffer]
      rw [trim_zeros_cp1252]
      rfl
  | .WSTRING len, _, n, _ => by
      simp only [convertFromBuffer]
      rw [trim_zeros_ucs2]
      rfl
  | .STRUCT cs, h, n, hn => by
      simp only [goodDefault, Bool.and_eq_true] at h
      have hbs : byteLength (.STRUCT cs) = specSumLen cs := byteLength_spec (.STRUCT cs)
      simp only [convertFromBuffer]
      rw [structDecZeros cs n 0 (fun p hp => goodDefaultFields_mem cs p h.2 hp) (by omega)]
      rfl
  | .UNION cs, h, n, hn => by
      simp only [goodDefault, Bool.and_eq_true] at h
      have hbs : byteLength (.UNION cs) = specMaxLen cs := byteLength_spec (.UNION cs)
      simp only [convertFromBuffer]
      rw [unionDecZeros cs n (fun p hp => goodDefaultFields_mem cs p h.2 hp) (by omega)]
      rfl
  | .ARRAY dt dims, h, n, hn => by
      simp only [goodDefault, Bool.and_eq_true] at h
      obtain ⟨hg, hdims⟩ := h
      have hpos : ∀ d ∈ dims, 0 < d := by
        simp only [Bool.or_eq_true] at hdims
        rcases hdims with he | ha
        · intro d hd
          rw [List.isEmpty_iff] at he
          subst he
          simp at hd
        · intro d hd
          simpa using List.all_eq_true.mp ha d hd
      have hbs : byteLength (.ARRAY dt dims) = totalSize dims * byteLength dt := rfl
      have hcount : countElems dims * byteLength dt ≤ n :=
        calc countElems dims * byteLength dt
            ≤ dims.prod * byteLength dt :=
              Nat.mul_le_mul_right _ (countElems_le_prod dims hpos)
          _ = totalSize dims * byteLength dt := by rw [totalSize_eq_prod]
          _ = byteLength (.ARRAY dt dims) := hbs.symm
          _ ≤ n := hn
      simp only [convertFromBuffer]
      rw [arrDecDim_zeros (convertFromBuffer dt) (byteLength dt) (getDefault dt)
        (defaultDecZeros dt hg (byteLength dt) le_rfl) dims hpos n 0 (by omega)]
      rfl
  | .ENUM defn dt, h, n, hn => by
      cases defn with
      | nil => simp [goodDefault] at h
      | cons hd tl =>
          obtain ⟨k0, v0⟩ := hd
          simp only [goodDefault, Bool.and_eq_true, beq_iff_eq, bne_iff_ne, ne_eq] at h
          obtain ⟨⟨hv, hk0⟩, hsm⟩ := h
          subst hv
          simp only [convertFromBuffer]
          rw [smallInt_dec_zeros dt hsm n hn]
          simp only [Option.map_some']
          rw [show findEnumEntryByValue ((k0, (0 : Int)) :: tl) (.num 0) =
              some (.enumEntry (some k0) (.num 0)) from by
            simp [findEnumEntryByValue]]
          rfl
/-- STRUCT decode of an all-zero buffer: every child region is all zeros, so
each child decodes to its default, in declared order. -/
theorem structDecZeros : ∀ (cs : Children) (n pos : Nat),
    (∀ p ∈ cs.toList, goodDefault p.2 = true) → pos + specSumLen cs ≤ n →
    structDec cs (zerosBuf n) pos = some (defaultFields cs)
  | .nil, n, pos, _, _ => rfl
  | .cons k t rest, n, pos, hgood, hb => by
      simp only [specSumLen] at hb
      have hbt : byteLength t = specByteLength t := byteLength_spec t
      rw [structDec]
      have hslice : sliceJS (zerosBuf n) pos (pos + byteLength t) = zerosBuf (byteLength t) := by
        rw [sliceJS_zeros]
        congr 1
        omega
      rw [hslice, defaultDecZeros t (hgood (k, t) (by simp [Children.toList]))
        (byteLength t) le_rfl]
      simp only [Option.pure_def, Option.bind_eq_bind, Option.some_bind]
      rw [structDecZeros rest n (pos + byteLength t)
        (fun p hp => hgood p (by simp only [Children.toList, List.mem_cons]; exact Or.inr hp))
        (by omega)]
      rfl
/-- UNION decode of an all-zero buffer: every child decodes the zero prefix
to its default. -/
theorem unionDecZeros : ∀ (cs : Children) (n : Nat),
    (∀ p ∈ cs.toList, goodDefault p.2 = true) → specMaxLen cs ≤ n →
    unionDec cs (zerosBuf n) = some (defaultFields cs)
  | .nil, n, _, _ => rfl
  | .cons k t rest, n, hgood, hb => by
      simp only [specMaxLen] at hb
      have hbt : byteLength t = specByteLength t := byteLength_spec t
      rw [unionDec]
      have hslice : sliceJS (zerosBuf n) 0 (byteLength t) = zerosBuf (byteLength t) := by
        rw [sliceJS_zeros]
        congr 1
        omega
      rw [hslice, defaultDecZeros t (hgood (k, t) (by simp [Children.toList]))
        (byteLength t) le_rfl]
      simp only [Option.pure_def, Option.bind_eq_bind, Option.some_bind]
      rw [unionDecZeros rest n
        (fun p hp => hgood p (by simp only [Children.toList, List.mem_cons]; exact Or.inr hp))
        (by omega)]
      rfl
end

/-- C9, counterexample: `getDefault` is not in general a fixed point of the
codec round trip. For an ENUM over INT whose first declared entry is
`a := 1`, the default is that entry `{name: "a", value: 1}`; encoding it
takes the truthy-`value` path and hands the whole entry object to the
backing INT write, which coerces it to NaN and stores two zero bytes;
decoding those yields `{name: undefined, value: 0}`, not the default. -/
theorem c9_default_counterexample :
    getDefault (.ENUM [("a", 1)] .INT) = .enumEntry (some "a") (.num 1) ∧
    convertToBuffer (.ENUM [("a", 1)] .INT) (.enumEntry (some "a") (.num 1)) = some [0, 0] ∧
    convertFromBuffer (.ENUM [("a", 1)] .INT) [0, 0] = some (.enumEntry none (.num 0)) ∧
    IecValue.enumEntry none (.num 0) ≠ .enumEntry (some "a") (.num 1) :=
  ⟨rfl, rfl, rfl, by simp⟩

/-- C9 (corrected): `getDefault` is a fixed point of the codec round trip on
the `goodDefault` domain — no BigInt-backed 64-bit integer kind anywhere
(their number-0 default throws in the BigInt write), composite children with
duplicate-free names, positive (or absent) array dimensions, and every ENUM
carrying a first declared entry of value 0 with a nonempty name over a 1-,
2- or 4-byte integer backing. There the default encodes to the all-zero
buffer of the declared byte length, which decodes back to exactly the
default. -/
theorem c9_default_roundtrip (t : IecType) (h : goodDefault t = true) :
    convertToBuffer t (getDefault t) = some (zerosBuf (byteLength t)) ∧
    convertFromBuffer t (zerosBuf (byteLength t)) = some (getDefault t) :=
  ⟨defaultEncZeros t h, defaultDecZeros t h (byteLength t) le_rfl⟩

theorem c9_default_roundtrip_witness :
    goodDefault (.STRUCT (.cons "a" .INT (.cons "s" (.STRING 2)
      (.cons "e" (.ENUM [("x", 0)] .INT) (.cons "r" (.ARRAY .INT [2]) .nil))))) = true ∧
    (convertToBuffer (.STRUCT (.cons "a" .INT (.cons "s" (.STRING 2)
        (.cons "e" (.ENUM [("x", 0)] .INT) (.cons "r" (.ARRAY .INT [2]) .nil)))))
        (getDefault (.STRUCT (.cons "a" .INT (.cons "s" (.STRING 2)
          (.cons "e" (.ENUM [("x", 0)] .INT) (.cons "r" (.ARRAY .INT [2]) .nil)))))) =
        some (zerosBuf (byteLength (.STRUCT (.cons "a" .INT (.cons "s" (.STRING 2)
          (.cons "e" (.ENUM [("x", 0)] .INT) (.cons "r" (.ARRAY .INT [2]) .nil))))))) ∧
      convertFromBuffer (.STRUCT (.cons "a" .INT (.cons "s" (.STRING 2)
          (.cons "e" (.ENUM [("x", 0)] .INT) (.cons "r" (.ARRAY .INT [2]) .nil)))))
        (zerosBuf (byteLength (.STRUCT (.cons "a" .INT (.cons "s" (.STRING 2)
          (.cons "e" (.ENUM [("x", 0)] .INT) (.cons "r" (.ARRAY .INT [2]) .nil))))))) =
        some (getDefault (.STRUCT (.cons "a" .INT (.cons "s" (.STRING 2)
          (.cons "e" (.ENUM [("x", 0)] .INT) (.cons "r" (.ARRAY .INT [2]) .nil))))))) :=
  ⟨rfl, c9_default_roundtrip (.STRUCT (.cons "a" .INT (.cons "s" (.STRING 2)
    (.cons "e" (.ENUM [("x", 0)] .INT) (.cons "r" (.ARRAY .INT [2]) .nil))))) rfl⟩

/-! ## Resolver order-independence (claim C3) -/

/-- When the mapped keys of a list are duplicate-free, the first element
whose key equals a given one is the same under any permutation of the
list. -/
theorem find?_perm_unique {α β : Type} [BEq β] [LawfulBEq β] (f : α → β)
    (l l' : List α) (hp : l.Perm l') (hnd : (l.map f).Nodup) (b : β) :
    l.find? (fun x => f x == b) = l'.find? (fun x => f x == b) := by
  cases h : l.find? (fun x => f x == b) with
  | none =>
      have hnone := List.find?_eq_none.mp h
      symm
      rw [List.find?_eq_none]
      intro x hx
      exact hnone x (hp.mem_iff.mpr hx)
  | some a =>
      have hpa : f a = b := by simpa using List.find?_some h
      have hma : a ∈ l := List.mem_of_find?_eq_some h
      cases h' : l'.find? (fun x => f x == b) with
      | none =>
          have hnone := List.find?_eq_none.mp h'
          exact absurd (by simpa using hpa) (by simpa using hnone a (hp.mem_iff.mp hma))
      | some c =>
          have hpc : f c = b := by simpa using List.find?_some h'
          have hmc : c ∈ l := hp.mem_iff.mpr (List.mem_of_find?_eq_some h')
          have : a = c := List.inj_on_of_nodup_map hnd hma hmc (hpa.trans hpc.symm)
          rw [this]

mutual
/-- `resolveIecVariable` depends on the unit batch only through the
unordered, duplicate-free (case-insensitive) name-to-unit association. -/
theorem resolveVar_perm : ∀ (fuel : Nat) (s : String)
    (types types' : List ExtractedType) (provided : List (String × IecType)),
    types.Perm types' → (types.map fun u => lowerStr u.name).Nodup →
    resolveIecVariable fuel s types provided = resolveIecVariable fuel s types' provided
  | 0, _, _, _, _, _, _ => rfl
  | fuel + 1, s, types, types', provided, hp, hnd => by
      rw [resolveIecVariable, resolveIecVariable]
      cases nonComplexTypes.find? (fun t => lowerStr (typeNameStr t) == lowerStr s) with
      | some t => rfl
      | none =>
          cases matchStringDef s with
          | some pr => rfl
          | none =>
              cases matchArrayDef s with
              | some pr =>
                  obtain ⟨dimsText, elemText⟩ := pr
                  simp only []
                  rw [resolveVar_perm fuel elemText types types' provided hp hnd]
              | none =>
                  rw [find?_perm_unique (fun u => lowerStr u.name) types types' hp
                    (by simpa using hnd) (lowerStr s)]
                  cases types'.find? (fun u => lowerStr u.name == lowerStr s) with
                  | some u => exact resolveUnit_perm fuel u types types' provided hp hnd
                  | none => rfl
/-- `resolveIecDataTypeUnit` likewise. -/
theorem resolveUnit_perm : ∀ (fuel : Nat) (u : ExtractedType)
    (types types' : List ExtractedType) (provided : List (String × IecType)),
    types.Perm types' → (types.map fun u => lowerStr u.name).Nodup →
    resolveIecDataTypeUnit fuel u types provided = resolveIecDataTypeUnit fuel u types' provided
  | 0, _, _, _, _, _, _ => rfl
  | fuel + 1, u, types, types', provided, hp, hnd => by
      rw [resolveIecDataTypeUnit, resolveIecDataTypeUnit]
      cases u.content with
      | structVars vars =>
          simp only []
          rw [resolveMembers_perm fuel vars types types' provided hp hnd]
      | unionVars vars =>
          simp only []
          rw [resolveMembers_perm fuel vars types types' provided hp hnd]
      | enumDef dtName content =>
          simp only []
          rw [resolveVar_perm fuel dtName types types' provided hp hnd]
      | aliasTo dtName => exact resolveVar_perm fuel dtName types types' provided hp hnd
/-- The member loop likewise. -/
theorem resolveMembers_perm : ∀ (fuel : Nat) (vars : List (String × String))
    (types types' : List ExtractedType) (provided : List (String × IecType)),
    types.Perm types' → (types.map fun u => lowerStr u.name).Nodup →
    resolveMembers fuel vars types provided = resolveMembers fuel vars types' provided
  | 0, _, _, _, _, _, _ => rfl
  | _ + 1, [], _, _, _, _, _ => rfl
  | fuel + 1, (n, dtText) :: rest, types, types', provided, hp, hnd => by
      rw [resolveMembers, resolveMembers, resolveVar_perm fuel dtText types types' provided hp hnd,
        resolveMembers_perm fuel rest types types' provided hp hnd]
end

/-- `resolveAllUnits` is exactly an all-units success check. -/
theorem resolveAllUnits_eq_all (fuel : Nat) : ∀ (us : List ExtractedType)
    (types : List ExtractedType) (provided : List (String × IecType)),
    resolveAllUnits fuel us types provided =
      if us.all (fun u => (resolveIecDataTypeUnit fuel u types provided).isSome)
      then some () else none
  | [], _, _ => rfl
  | u :: rest, types, provided => by
      rw [resolveAllUnits]
      cases h : resolveIecDataTypeUnit fuel u types provided with
      | none => simp [h]
      | some t =>
          simp only [Option.pure_def, Option.bind_eq_bind, Option.some_bind,
            resolveAllUnits_eq_all fuel rest types provided, List.all_cons, h,
            Option.isSome_some, Bool.true_and]

/-- Whole-batch resolution with a settled top-level name is permutation
invariant for duplicate-free (case-insensitive) unit names. -/
theorem resolveWithTop_perm (fuel : Nat) (types types' : List ExtractedType)
    (top : String) (provided : List (String × IecType))
    (hp : types.Perm types')
    (hnd : (types.map fun u => lowerStr u.name).Nodup) :
    resolveWithTop fuel types top provided = resolveWithTop fuel types' top provided := by
  have hall : resolveAllUnits fuel types types provided =
      resolveAllUnits fuel types' types' provided := by
    rw [resolveAllUnits_eq_all, resolveAllUnits_eq_all]
    have he : types.all (fun u => (resolveIecDataTypeUnit fuel u types provided).isSome) =
        types'.all (fun u => (resolveIecDataTypeUnit fuel u types' provided).isSome) := by
      rw [Bool.eq_iff_iff, List.all_eq_true, List.all_eq_true]
      constructor
      · intro h u hu
        rw [← resolveUnit_perm fuel u types types' provided hp hnd]
        exact h u (hp.mem_iff.mpr hu)
      · intro h u hu
        rw [resolveUnit_perm fuel u types types' provided hp hnd]
        exact h u (hp.mem_iff.mp hu)
    rw [he]
  have hfind : types.find? (fun u => lowerStr u.name == lowerStr top) =
      types'.find? (fun u => lowerStr u.name == lowerStr top) :=
    find?_perm_unique (fun u => lowerStr u.name) types types' hp hnd (lowerStr top)
  rw [resolveWithTop, resolveWithTop, hall, hfind]
  cases resolveAllUnits fuel types' types' provided with
  | none => rfl
  | some u0 =>
      simp only [Option.pure_def, Option.bind_eq_bind, Option.some_bind]
      cases types'.find? (fun u => lowerStr u.name == lowerStr top) with
      | none => rfl
      | some u =>
          simp only [Option.some_bind]
          exact resolveUnit_perm fuel u types types' provided hp hnd

/-- C3, counterexample: two units whose names collide case-insensitively
break order-independence — the resolver's case-insensitive `find` takes the
first matching unit, so the same batch permuted resolves the same top-level
name to structurally different schemas. -/
theorem c3_order_counterexample :
    ([⟨"Dup", .aliasTo "INT"⟩, ⟨"Dup", .aliasTo "BOOL"⟩] : List ExtractedType).Perm
      [⟨"Dup", .aliasTo "BOOL"⟩, ⟨"Dup", .aliasTo "INT"⟩] ∧
    resolveIecTypes 5 [⟨"Dup", .aliasTo "INT"⟩, ⟨"Dup", .aliasTo "BOOL"⟩]
      (some "Dup") [] = some .INT ∧
    resolveIecTypes 5 [⟨"Dup", .aliasTo "BOOL"⟩, ⟨"Dup", .aliasTo "INT"⟩]
      (some "Dup") [] = some .BOOL ∧
    IecType.INT ≠ IecType.BOOL :=
  ⟨List.Perm.swap _ _ _, rfl, rfl, fun h => IecType.noConfusion h⟩

/-- C3 (corrected): resolving a batch of declarations with an explicitly
named top level is invariant under permuting the units — so in particular a
unit referencing another declared before or after it resolves identically —
provided the units' case-insensitive names are duplicate-free (the
counterexample shows the claim fails without that proviso, which the source
never checks). -/
theorem c3_resolver_order (fuel : Nat) (types types' : List ExtractedType)
    (top : String) (provided : List (String × IecType))
    (hp : types.Perm types')
    (hnd : (types.map fun u => lowerStr u.name).Nodup)
    (htop : top ≠ "") :
    resolveIecTypes fuel types (some top) provided =
      resolveIecTypes fuel types' (some top) provided := by
  have htop' : (top == "") = false := by simpa using htop
  delta resolveIecTypes
  simp only [htop', Bool.false_eq_true, if_false]
  exact resolveWithTop_perm fuel types types' top provided hp hnd

theorem c3_resolver_order_witness :
    ([⟨"ST_Parent", .structVars [("c", "ST_Child"), ("x", "INT")]⟩,
      ⟨"ST_Child", .structVars [("b", "BOOL")]⟩] : List ExtractedType).Perm
      [⟨"ST_Child", .structVars [("b", "BOOL")]⟩,
       ⟨"ST_Parent", .structVars [("c", "ST_Child"), ("x", "INT")]⟩] ∧
    (([⟨"ST_Parent", .structVars [("c", "ST_Child"), ("x", "INT")]⟩,
       ⟨"ST_Child", .structVars [("b", "BOOL")]⟩] : List ExtractedType).map
      fun u => lowerStr u.name).Nodup ∧
    "ST_Parent" ≠ "" ∧
    resolveIecTypes 9 [⟨"ST_Parent", .structVars [("c", "ST_Child"), ("x", "INT")]⟩,
        ⟨"ST_Child", .structVars [("b", "BOOL")]⟩] (some "ST_Parent") [] =
      resolveIecTypes 9 [⟨"ST_Child", .structVars [("b", "BOOL")]⟩,
        ⟨"ST_Parent", .structVars [("c", "ST_Child"), ("x", "INT")]⟩] (some "ST_Parent") [] :=
  ⟨List.Perm.swap _ _ _, by decide, by decide,
    c3_resolver_order 9
      [⟨"ST_Parent", .structVars [("c", "ST_Child"), ("x", "INT")]⟩,
       ⟨"ST_Child", .structVars [("b", "BOOL")]⟩]
      [⟨"ST_Child", .structVars [("b", "BOOL")]⟩,
       ⟨"ST_Parent", .structVars [("c", "ST_Child"), ("x", "INT")]⟩]
      "ST_Parent" [] (List.Perm.swap _ _ _) (by decide) (by decide)⟩

/-! ## Codec round trips (claim C2) -/

/-- Two's-complement arithmetic of the little-endian integer codecs: on the
signed range, reducing modulo `256 ^ w` and reconstructing through the
half-range test is the identity. -/
theorem twoComp_eq (w : Nat) (hw : 0 < w) (n : Int)
    (hlo : -(2 ^ (8 * w - 1)) ≤ n) (hhi : n ≤ 2 ^ (8 * w - 1) - 1) :
    (n % ((256 ^ w : Nat) : Int)).toNat < 256 ^ w ∧
    ((if (256 ^ w : Nat) / 2 ≤ (n % ((256 ^ w : Nat) : Int)).toNat
      then ((n % ((256 ^ w : Nat) : Int)).toNat : Int) - ((256 ^ w : Nat) : Int)
      else ((n % ((256 ^ w : Nat) : Int)).toNat : Int)) = n) := by
  have h8 : (256 : Nat) ^ w = 2 ^ (8 * w) := by
    rw [show (256 : Nat) = 2 ^ 8 from rfl, ← pow_mul]
  have hhalfN : 2 * 2 ^ (8 * w - 1) = 2 ^ (8 * w) := by
    rw [← pow_succ']
    congr 1
    omega
  have hdiv : (256 ^ w : Nat) / 2 = 2 ^ (8 * w - 1) := by
    rw [h8]
    omega
  have hKint : ((256 ^ w : Nat) : Int) = ((2 ^ (8 * w) : Nat) : Int) := by
    rw [h8]
  have hhalfI : ((2 ^ (8 * w - 1) : Nat) : Int) = 2 ^ (8 * w - 1) := by push_cast; ring
  have hhalfI2 : (2 : Int) * 2 ^ (8 * w - 1) = 2 ^ (8 * w) := by
    rw [← pow_succ']
    congr 1
    omega
  have hKpos : (0 : Int) < ((256 ^ w : Nat) : Int) := by
    have : 0 < (256 : Nat) ^ w := pow_pos (by norm_num) w
    exact_mod_cast this
  have hm0 : 0 ≤ n % ((256 ^ w : Nat) : Int) := Int.emod_nonneg n (by omega)
  have hmK : n % ((256 ^ w : Nat) : Int) < ((256 ^ w : Nat) : Int) := Int.emod_lt_of_pos n hKpos
  have hcast : ((n % ((256 ^ w : Nat) : Int)).toNat : Int) = n % ((256 ^ w : Nat) : Int) :=
    Int.toNat_of_nonneg hm0
  have hKint2 : ((256 ^ w : Nat) : Int) = 2 ^ (8 * w) := by
    rw [hKint]
    push_cast
    ring
  have hmod : n % ((256 ^ w : Nat) : Int) = n ∨ n % ((256 ^ w : Nat) : Int) = n + ((256 ^ w : Nat) : Int) := by
    rcases le_or_lt 0 n with hn | hn
    · left
      apply Int.emod_eq_of_lt hn
      omega
    · right
      have h1 : (n + ((256 ^ w : Nat) : Int) * 1) % ((256 ^ w : Nat) : Int) =
          n % ((256 ^ w : Nat) : Int) :=
        Int.add_mul_emod_self_left n ((256 ^ w : Nat) : Int) 1
      rw [mul_one] at h1
      rw [← h1]
      apply Int.emod_eq_of_lt (by omega) (by omega)
  constructor
  · omega
  · rcases hmod with h | h
    · rw [if_neg (by omega)]
      omega
    · rw [if_pos (by omega)]
      omega

/-- Round trip of the fixed-width little-endian integer codec on its exact
accepted range. -/
theorem intCodec_roundtrip (w : Nat) (hw : 0 < w) (signed : Bool) (n : Int)
    (hval : validIntVal w signed (.num n) = true) :
    writeIntLE w signed (.num n) = some (natToBytesLE w (n % (256 ^ w : Nat)).toNat) ∧
    (natToBytesLE w (n % (256 ^ w : Nat)).toNat).length = w ∧
    readIntLE w signed (natToBytesLE w (n % (256 ^ w : Nat)).toNat) = some n := by
  have h8 : (256 : Nat) ^ w = 2 ^ (8 * w) := by
    rw [show (256 : Nat) = 2 ^ 8 from rfl, ← pow_mul]
  have hKint2 : ((256 ^ w : Nat) : Int) = 2 ^ (8 * w) := by
    rw [h8]
    push_cast
    ring
  have hhalfI2 : (2 : Int) * 2 ^ (8 * w - 1) = 2 ^ (8 * w) := by
    rw [← pow_succ']
    congr 1
    omega
  cases signed with
  | false =>
      simp [validIntVal] at hval
      obtain ⟨h0, h1⟩ := hval
      have hmod : n % ((256 ^ w : Nat) : Int) = n := Int.emod_eq_of_lt h0 (by omega)
      have hMlt : (n % ((256 ^ w : Nat) : Int)).toNat < 256 ^ w := by omega
      refine ⟨?_, natToBytesLE_length w _, ?_⟩
      · unfold writeIntLE
        simp only [toNumberForWrite]
        rw [if_neg (by simp only [Bool.false_eq_true, if_false]; omega)]
      · unfold readIntLE readUIntLE
        rw [if_neg (by rw [natToBytesLE_length]; omega),
          List.take_of_length_le (le_of_eq (natToBytesLE_length w _)),
          bytesToNatLE_natToBytesLE w _ hMlt]
        simp only [Option.map_some', Option.some.injEq]
        rw [if_neg (by simp)]
        omega
  | true =>
      simp [validIntVal] at hval
      obtain ⟨h0, h1⟩ := hval
      obtain ⟨hMlt, heq⟩ := twoComp_eq w hw n h0 h1
      refine ⟨?_, natToBytesLE_length w _, ?_⟩
      · unfold writeIntLE
        simp only [toNumberForWrite]
        rw [if_neg (by simp only [if_true]; omega)]
      · unfold readIntLE readUIntLE
        rw [if_neg (by rw [natToBytesLE_length]; omega),
          List.take_of_length_le (le_of_eq (natToBytesLE_length w _)),
          bytesToNatLE_natToBytesLE w _ hMlt]
        simp only [Option.map_some', Option.some.injEq]
        simpa using heq

/-- Round trip of the unsigned BigInt codec (ULINT/LWORD) on its range. -/
theorem bigUCodec_roundtrip (n : Int) (h0 : 0 ≤ n) (h1 : n ≤ 2 ^ 64 - 1) :
    writeBigLE false (.bignum n) = some (natToBytesLE 8 (n % (256 ^ 8 : Nat)).toNat) ∧
    (natToBytesLE 8 (n % (256 ^ 8 : Nat)).toNat).length = 8 ∧
    readUIntLE 8 (natToBytesLE 8 (n % (256 ^ 8 : Nat)).toNat) =
      some (n % ((256 ^ 8 : Nat) : Int)).toNat ∧
    (((n % ((256 ^ 8 : Nat) : Int)).toNat : Int)) = n := by
  have hK : ((256 ^ 8 : Nat) : Int) = 2 ^ 64 := by norm_num
  have hmod : n % ((256 ^ 8 : Nat) : Int) = n := Int.emod_eq_of_lt h0 (by omega)
  have hMlt : (n % ((256 ^ 8 : Nat) : Int)).toNat < 256 ^ 8 := by
    have : (256 : Nat) ^ 8 = 2 ^ 64 := by norm_num
    omega
  refine ⟨?_, natToBytesLE_length 8 _, ?_, by omega⟩
  · show (if n > ((2 : Int) ^ 64 - 1) ∨ n < 0 then none
        else some (natToBytesLE 8 (n % (256 ^ 8 : Nat)).toNat)) =
      some (natToBytesLE 8 (n % (256 ^ 8 : Nat)).toNat)
    rw [if_neg (by omega)]
  · unfold readUIntLE
    rw [if_neg (by rw [natToBytesLE_length]; omega),
      List.take_of_length_le (le_of_eq (natToBytesLE_length 8 _)),
      bytesToNatLE_natToBytesLE 8 _ hMlt]

/-- Round trip of the signed BigInt codec (LINT) on its range. -/
theorem bigSCodec_roundtrip (n : Int) (h0 : -(2 ^ 63) ≤ n) (h1 : n ≤ 2 ^ 63 - 1) :
    writeBigLE true (.bignum n) = some (natToBytesLE 8 (n % (256 ^ 8 : Nat)).toNat) ∧
    (natToBytesLE 8 (n % (256 ^ 8 : Nat)).toNat).length = 8 ∧
    readUIntLE 8 (natToBytesLE 8 (n % (256 ^ 8 : Nat)).toNat) =
      some (n % ((256 ^ 8 : Nat) : Int)).toNat ∧
    ((if 256 ^ 8 / 2 ≤ (n % ((256 ^ 8 : Nat) : Int)).toNat
      then ((n % ((256 ^ 8 : Nat) : Int)).toNat : Int) - 256 ^ 8
      else ((n % ((256 ^ 8 : Nat) : Int)).toNat : Int)) = n) := by
  have h0' : -(2 ^ (8 * 8 - 1)) ≤ n := by simpa using h0
  have h1' : n ≤ 2 ^ (8 * 8 - 1) - 1 := by simpa using h1
  obtain ⟨hMlt, heq⟩ := twoComp_eq 8 (by norm_num) n h0' h1'
  have hc : ((256 ^ 8 : Nat) : Int) = 256 ^ 8 := by norm_num
  refine ⟨?_, natToBytesLE_length 8 _, ?_, ?_⟩
  · show (if n > ((2 : Int) ^ 63 - 1) ∨ n < -(2 ^ 63) then none
        else some (natToBytesLE 8 (n % (256 ^ 8 : Nat)).toNat)) =
      some (natToBytesLE 8 (n % (256 ^ 8 : Nat)).toNat)
    rw [if_neg (by omega)]
  · unfold readUIntLE
    rw [if_neg (by rw [natToBytesLE_length]; omega),
      List.take_of_length_le (le_of_eq (natToBytesLE_length 8 _)),
      bytesToNatLE_natToBytesLE 8 _ hMlt]
  · rw [← hc]
    exact heq

/-- A small-integer schema canonicalizes a numeric value to itself. -/
theorem canonValue_num (dt : IecType) (n : Int) (h : isSmallIntKind dt = true) :
    canonValue dt (.num n) = .num n := by
  cases dt <;> first | rfl | simp [isSmallIntKind] at h

/-- Mapping the single-byte encode--decode composite over characters below
256 is the identity. -/
theorem cp1252_chars : ∀ (l : List Char), l.all (fun c => c.toNat < 256) = true →
    l.map (fun b => Char.ofNat ((if b.toNat < 256 then b.toNat else 63) % 256)) = l
  | [], _ => rfl
  | c :: rest, h => by
      simp only [List.all_cons, Bool.and_eq_true, decide_eq_true_eq] at h
      have hc : Char.ofNat ((if c.toNat < 256 then c.toNat else 63) % 256) = c := by
        rw [if_pos h.1, Nat.mod_eq_of_lt h.1, Char.ofNat_toNat]
      simp only [List.map_cons, cp1252_chars rest h.2, hc]

/-- Decoding a single-byte-encoded string with zero padding appended. -/
theorem cp1252_decode_append (s : String) (h : s.data.all (fun c => c.toNat < 256) = true)
    (m : Nat) :
    cp1252Str (cp1252Bytes s ++ zerosBuf m) = ⟨s.data ++ List.replicate m (Char.ofNat 0)⟩ := by
  simp only [cp1252Str, cp1252Bytes, zerosBuf, List.map_append, List.map_map,
    List.map_replicate]
  have h1 : s.data.map ((fun b => Char.ofNat (b % 256)) ∘
      fun c => if c.toNat < 256 then c.toNat else 63) = s.data := cp1252_chars s.data h
  rw [h1]

/-- `trimPlcString` ignores appended zero characters. -/
theorem trim_append_zeros (l : List Char) (m : Nat) :
    (l ++ List.replicate m (Char.ofNat 0)).takeWhile (fun c => c.toNat ≠ 0) =
      l.takeWhile (fun c => c.toNat ≠ 0) := by
  rw [List.takeWhile_append]
  split
  case isTrue h =>
    rw [takeWhile_replicate_stop _ _ (by decide), List.append_nil]
    exact ((List.takeWhile_prefix _).eq_of_length h).symm
  case isFalse h => rfl

theorem ucs2Bytes_length : ∀ (l : List Char), (ucs2Bytes l).length = 2 * l.length
  | [] => rfl
  | c :: rest => by
      simp only [ucs2Bytes, List.length_cons, ucs2Bytes_length rest]
      ring

/-- Decoding a UCS-2-encoded string with an even zero padding appended. -/
theorem ucs2_decode_append : ∀ (l : List Char), l.all (fun c => c.toNat < 2 ^ 16) = true →
    ∀ (r : List Nat), ucs2Chars (ucs2Bytes l ++ r) = l ++ ucs2Chars r
  | [], _, r => rfl
  | c :: rest, h, r => by
      simp only [List.all_cons, Bool.and_eq_true, decide_eq_true_eq] at h
      have hch : Char.ofNat (c.toNat % 256 % 256 + 256 * (c.toNat / 256 % 256 % 256)) = c := by
        have hdiv : c.toNat / 256 < 256 := by omega
        rw [show c.toNat % 256 % 256 + 256 * (c.toNat / 256 % 256 % 256) = c.toNat by omega]
        exact Char.ofNat_toNat c
      show Char.ofNat (c.toNat % 256 % 256 + 256 * (c.toNat / 256 % 256 % 256)) ::
          ucs2Chars (ucs2Bytes rest ++ r) = c :: (rest ++ ucs2Chars r)
      rw [hch, ucs2_decode_append rest h.2 r]

/-- A leading field whose key none of the children carry is invisible to the
child conversions. -/
theorem childEncs_skip : ∀ (cs : Children) (k : String) (v : IecValue)
    (fs : List (String × IecValue)), k ∉ childNames cs →
    childEncs cs (.obj ((k, v) :: fs)) = childEncs cs (.obj fs)
  | .nil, _, _, _, _ => rfl
  | .cons k1 t rest, k, v, fs, hk => by
      simp only [childNames, List.mem_cons, not_or] at hk
      rw [childEncs, childEncs, getFieldJS_obj_tail k k1 v fs hk.1,
        childEncs_skip rest k v fs hk.2]

/-- On the walks a valid value exercises, the decode-step count is bounded by
the declared element count. -/
theorem countElems_le_prod_valid (p : IecValue → Bool) :
    ∀ (dims : List Nat) (v : IecValue), validArr p dims v = true →
    countElems dims ≤ dims.prod
  | [], _, _ => by simp [countElems]
  | d :: rest, v, hval => by
      cases v with
      | arr es =>
          simp only [validArr, Bool.and_eq_true, beq_iff_eq] at hval
          obtain ⟨hlen, hbranch⟩ := hval
          cases hr : nextDimTruthy rest with
          | false =>
              rw [hr] at hbranch
              simp only [Bool.false_eq_true, if_false, Bool.and_eq_true,
                List.isEmpty_iff] at hbranch
              obtain ⟨hes, _⟩ := hbranch
              subst hes
              simp [countElems, nextDimTruthy]
          | true =>
              rw [hr] at hbranch
              simp only [if_true, Bool.and_eq_true] at hbranch
              simp only [countElems, hr, if_true, List.prod_cons]
              cases es with
              | nil =>
                  have hd : d = 0 := by simpa using hlen.symm
                  subst hd
                  simp
              | cons e es' =>
                  have he : validArr p rest e = true := by
                    have := hbranch.2
                    rw [List.all_cons, Bool.and_eq_true] at this
                    exact this.1
                  exact Nat.mul_le_mul_left d (countElems_le_prod_valid p rest e he)
      | undef => simp [validArr] at hval
      | bool b => simp [validArr] at hval
      | num n => simp [validArr] at hval
      | real32 b => simp [validArr] at hval
      | real64 b => simp [validArr] at hval
      | bignum n => simp [validArr] at hval
      | str s => simp [validArr] at hval
      | obj fs => simp [validArr] at hval
      | enumEntry a b => simp [validArr] at hval

/-- Skolemize a pointwise existential over a list. -/
theorem exists_forall2 {α β : Type} (Pp : α → β → Prop) :
    ∀ (es : List α), (∀ e ∈ es, ∃ b, Pp e b) → ∃ bs, List.Forall₂ Pp es bs
  | [], _ => ⟨[], List.Forall₂.nil⟩
  | e :: es', h => by
      obtain ⟨b, hb⟩ := h e (List.mem_cons_self e es')
      obtain ⟨bs, hbs⟩ := exists_forall2 Pp es' fun x hx => h x (List.mem_cons_of_mem e hx)
      exact ⟨b :: bs, List.Forall₂.cons hb hbs⟩

/-- A pointwise functional relation transports maps. -/
theorem forall2_map_eq {α β γ : Type} (f : α → γ) (g : β → γ) :
    ∀ {l1 : List α} {l2 : List β}, List.Forall₂ (fun a b => g b = f a) l1 l2 →
    l2.map g = l1.map f := by
  intro l1 l2 h
  induction h with
  | nil => rfl
  | cons hab _ ih => simp [ih, hab]

/-- Flattening segments of one common length. -/
theorem forall2_flatten_length {α : Type} (c : Nat) :
    ∀ {l1 : List α} {l2 : List (List Nat)},
    List.Forall₂ (fun _ E => E.length = c) l1 l2 →
    l2.flatten.length = l1.length * c := by
  intro l1 l2 h
  induction h with
  | nil => simp
  | cons hab _ ih =>
      simp only [List.flatten_cons, List.length_append, List.length_cons, ih, hab]
      ring

/-- A `jsLoop` body that only reads indices above 0 can be re-indexed. -/
theorem jsLoop_shift {σ : Type} (step step' : Nat → σ → Option σ)
    (h : ∀ j st, step (j + 1) st = step' j st) :
    ∀ (k i : Nat) (st : σ), jsLoop step k (i + 1) st = jsLoop step' k i st
  | 0, _, _ => rfl
  | k + 1, i, st => by
      rw [jsLoop, jsLoop, h i st]
      cases step' i st with
      | none => rfl
      | some st1 =>
          simp only [Option.pure_def, Option.bind_eq_bind, Option.some_bind]
          exact jsLoop_shift step step' h k (i + 1) st1

/-- The element loop of ARRAY encode: when every element writes its own
fixed segment at the running position, the loop writes the concatenation of
the segments. -/
theorem arrEncLoopGen (body : IecValue → List Nat × Nat → Option (List Nat × Nat)) :
    ∀ (es : List IecValue) (Es : List (List Nat)),
      List.Forall₂ (fun e Ee => ∀ (buf : List Nat) (pos : Nat),
        body e (buf, pos) = some (copyInto buf pos Ee, pos + Ee.length)) es Es →
      ∀ (buf : List Nat) (pos : Nat),
        jsLoop (fun j st => do
            let x ← indexJS (.arr es) j
            body x st) es.length 0 (buf, pos) =
          some (copyInto buf pos Es.flatten, pos + Es.flatten.length) := by
  intro es Es hfa
  induction hfa with
  | nil =>
      intro buf pos
      simp [jsLoop, copyInto_nil]
  | @cons e Ee es' Es' he _ ih =>
      intro buf pos
      rw [List.length_cons, jsLoop]
      have hidx : indexJS (.arr (e :: es')) 0 = some e := rfl
      rw [show (do
          let x ← indexJS (.arr (e :: es')) 0
          body x (buf, pos)) = body e (buf, pos) from by rw [hidx]; rfl,
        he buf pos]
      simp only [Option.pure_def, Option.bind_eq_bind, Option.some_bind]
      rw [jsLoop_shift _ (fun j st => do
          let x ← indexJS (.arr es') j
          body x st) (fun j st => by
            rw [show indexJS (.arr (e :: es')) (j + 1) = indexJS (.arr es') j from rfl]
            rfl) es'.length 0 _]
      rw [ih (copyInto buf pos Ee) (pos + Ee.length)]
      rw [copyInto_append, List.flatten_cons, List.length_append]
      congr 2
      omega

/-- The element loop of ARRAY decode: when every element decodes its own
segment wherever that segment sits, the loop over the concatenation decodes
them all in order. -/
theorem arrDecLoopGen (body : List Nat → List IecValue × Nat → Option (List IecValue × Nat)) :
    ∀ (Es : List (List Nat)) (vals : List IecValue),
      List.Forall₂ (fun Ee ve => ∀ (P R : List Nat) (acc : List IecValue),
        body (P ++ Ee ++ R) (acc, P.length) = some (acc ++ [ve], P.length + Ee.length))
        Es vals →
      ∀ (P R : List Nat) (acc : List IecValue) (i : Nat),
        jsLoop (fun _j st => body (P ++ Es.flatten ++ R) st) Es.length i (acc, P.length) =
          some (acc ++ vals, P.length + Es.flatten.length) := by
  intro Es vals hfa
  induction hfa with
  | nil =>
      intro P R acc i
      simp [jsLoop]
  | @cons Ee ve Es' vals' he _ ih =>
      intro P R acc i
      rw [List.length_cons, jsLoop]
      rw [show P ++ (Ee :: Es').flatten ++ R = P ++ Ee ++ (Es'.flatten ++ R) from by
        simp [List.flatten_cons]]
      rw [he P (Es'.flatten ++ R) acc]
      simp only [Option.pure_def, Option.bind_eq_bind, Option.some_bind]
      have hP : P.length + Ee.length = (P ++ Ee).length := (List.length_append P Ee).symm
      rw [hP]
      rw [show P ++ Ee ++ (Es'.flatten ++ R) = (P ++ Ee) ++ Es'.flatten ++ R from by
        simp [List.append_assoc]]
      rw [ih (P ++ Ee) R (acc ++ [ve]) (i + 1)]
      simp only [List.length_append, List.flatten_cons, List.append_assoc,
        List.singleton_append, Option.some.injEq, Prod.mk.injEq]
      constructor
      · trivial
      · omega

/-- A value valid along any dimension walk is an array, hence truthy. -/
theorem validArr_truthy (p : IecValue → Bool) (dims : List Nat) (v : IecValue)
    (h : validArr p dims v = true) : truthy v = true := by
  cases dims <;> cases v <;> first | rfl | simp [validArr] at h

theorem forall2_weaken {α β : Type} (R S : α → β → Prop) (h : ∀ a b, R a b → S a b) :
    ∀ {l1 : List α} {l2 : List β}, List.Forall₂ R l1 l2 → List.Forall₂ S l1 l2 := by
  intro l1 l2 hf
  induction hf with
  | nil => exact List.Forall₂.nil
  | cons hab _ ih => exact List.Forall₂.cons (h _ _ hab) ih

theorem forall2_map_right {α β γ : Type} (R : α → β → Prop) (S : α → γ → Prop) (f : β → γ)
    (h : ∀ a b, R a b → S a (f b)) :
    ∀ {l1 : List α} {l2 : List β}, List.Forall₂ R l1 l2 → List.Forall₂ S l1 (l2.map f) := by
  intro l1 l2 hf
  induction hf with
  | nil => exact List.Forall₂.nil
  | cons hab _ ih => exact List.Forall₂.cons (h _ _ hab) ih

theorem forall2_map_pair {β γ δ : Type} (T : γ → δ → Prop) (f : β → γ) (g : β → δ) :
    ∀ (bs : List β), (∀ b ∈ bs, T (f b) (g b)) → List.Forall₂ T (bs.map f) (bs.map g)
  | [], _ => List.Forall₂.nil
  | b :: bs', h =>
      List.Forall₂.cons (h b (List.mem_cons_self b bs'))
        (forall2_map_pair T f g bs' fun x hx => h x (List.mem_cons_of_mem b hx))

theorem forall2_right {α β : Type} (Q : β → Prop) : ∀ {l1 : List α} {l2 : List β},
    List.Forall₂ (fun _ b => Q b) l1 l2 → ∀ b ∈ l2, Q b := by
  intro l1 l2 h
  induction h with
  | nil =>
      intro b hb
      simp at hb
  | cons hab _ ih =>
      intro b hb
      rcases List.mem_cons.mp hb with h1 | h1
      · subst h1
        exact hab
      · exact ih b h1

/-- The slice of a concatenation at an inner segment's exact position. -/
theorem sliceJS_at (X b R2 : List Nat) :
    sliceJS (X ++ b ++ R2) X.length (X.length + b.length) = b := by
  have h := sliceJS_shift X (b ++ R2) 0 b.length
  simp only [Nat.add_zero] at h
  rw [List.append_assoc, h]
  simp only [sliceJS, List.drop_zero, Nat.sub_zero]
  exact List.take_left ..

/-- One small-integer kind's round trip, packaged for the main induction. -/
theorem smallIntCase (w : Nat) (hw : 0 < w) (signed : Bool) (n : Int)
    (h : validIntVal w signed (.num n) = true) :
    ∃ b, writeIntLE w signed (.num n) = some b ∧ b.length = w ∧
      (readIntLE w signed b).map IecValue.num = some (.num n) := by
  obtain ⟨henc, hlen, hdec⟩ := intCodec_roundtrip w hw signed n h
  refine ⟨_, henc, hlen, ?_⟩
  rw [hdec]
  rfl

set_option maxHeartbeats 2000000 in
mutual
/-- Claim C2's induction: every valid value of a schema encodes to a buffer
of exactly the declared byte length that decodes back to the value's
canonical form. -/
theorem roundtrip : ∀ (t : IecType) (v : IecValue), validValue t v = true →
    ∃ b, convertToBuffer t v = some b ∧ b.length = byteLength t ∧
      convertFromBuffer t b = some (canonValue t v)
  | .BOOL, v, h => by
      cases v
      case bool b =>
        cases b
        · exact ⟨[0], rfl, rfl, rfl⟩
        · exact ⟨[1], rfl, rfl, rfl⟩
      all_goals exact (nomatch h)
  | .USINT, v, h => by
      cases v
      case num n => exact smallIntCase 1 (by omega) false n h
      all_goals exact (nomatch h)
  | .BYTE, v, h => by
      cases v
      case num n => exact smallIntCase 1 (by omega) false n h
      all_goals exact (nomatch h)
  | .SINT, v, h => by
      cases v
      case num n => exact smallIntCase 1 (by omega) true n h
      all_goals exact (nomatch h)
  | .UINT, v, h => by
      cases v
      case num n => exact smallIntCase 2 (by omega) false n h
      all_goals exact (nomatch h)
  | .WORD, v, h => by
      cases v
      case num n => exact smallIntCase 2 (by omega) false n h
      all_goals exact (nomatch h)
  | .INT, v, h => by
      cases v
      case num n => exact smallIntCase 2 (by omega) true n h
      all_goals exact (nomatch h)
  | .DINT, v, h => by
      cases v
      case num n => exact smallIntCase 4 (by omega) true n h
      all_goals exact (nomatch h)
  | .UDINT, v, h => by
      cases v
      case num n => exact smallIntCase 4 (by omega) false n h
      all_goals exact (nomatch h)
  | .DWORD, v, h => by
      cases v
      case num n => exact smallIntCase 4 (by omega) false n h
      all_goals exact (nomatch h)
  | .TIME, v, h => by
      cases v
      case num n => exact smallIntCase 4 (by omega) false n h
      all_goals exact (nomatch h)
  | .TOD, v, h => by
      cases v
      case num n => exact smallIntCase 4 (by omega) false n h
      all_goals exact (nomatch h)
  | .TIME_OF_DAY, v, h => by
      cases v
      case num n => exact smallIntCase 4 (by omega) false n h
      all_goals exact (nomatch h)
  | .DT, v, h => by
      cases v
      case num n => exact smallIntCase 4 (by omega) false n h
      all_goals exact (nomatch h)
  | .DATE_AND_TIME, v, h => by
      cases v
      case num n => exact smallIntCase 4 (by omega) false n h
      all_goals exact (nomatch h)
  | .DATE, v, h => by
      cases v
      case num n => exact smallIntCase 4 (by omega) false n h
      all_goals exact (nomatch h)
  | .REAL, v, h => by
      cases v
      case real32 bits =>
        have hlt : bits < 2 ^ 32 := by
          simp only [validValue, validBits32, Bool.and_eq_true, decide_eq_true_eq] at h
          exact h.1
        refine ⟨natToBytesLE 4 bits, rfl, natToBytesLE_length 4 bits, ?_⟩
        show (readUIntLE 4 (natToBytesLE 4 bits)).map IecValue.real32 =
          some (canonValue .REAL (.real32 bits))
        unfold readUIntLE
        rw [if_neg (by rw [natToBytesLE_length]; omega),
          List.take_of_length_le (le_of_eq (natToBytesLE_length 4 _)),
          bytesToNatLE_natToBytesLE 4 bits
            (by have : (256 : Nat) ^ 4 = 2 ^ 32 := by norm_num
                omega)]
        rfl
      all_goals exact (nomatch h)
  | .LREAL, v, h => by
      cases v
      case real64 bits =>
        have hlt : bits < 2 ^ 64 := by
          simp only [validValue, validBits64, Bool.and_eq_true, decide_eq_true_eq] at h
          exact h.1
        refine ⟨natToBytesLE 8 bits, rfl, natToBytesLE_length 8 bits, ?_⟩
        show (readUIntLE 8 (natToBytesLE 8 bits)).map IecValue.real64 =
          some (canonValue .LREAL (.real64 bits))
        unfold readUIntLE
        rw [if_neg (by rw [natToBytesLE_length]; omega),
          List.take_of_length_le (le_of_eq (natToBytesLE_length 8 _)),
          bytesToNatLE_natToBytesLE 8 bits
            (by have : (256 : Nat) ^ 8 = 2 ^ 64 := by norm_num
                omega)]
        rfl
      all_goals exact (nomatch h)
  | .ULINT, v, h => by
      cases v
      case bignum n =>
        have hb : 0 ≤ n ∧ n ≤ 2 ^ 64 - 1 := by simpa [validValue] using h
        obtain ⟨henc, hlen, hdec, hcast⟩ := bigUCodec_roundtrip n hb.1 hb.2
        refine ⟨_, henc, hlen, ?_⟩
        show (readUIntLE 8 (natToBytesLE 8 (n % (256 ^ 8 : Nat)).toNat)).map
            (fun m => IecValue.bignum m) = some (canonValue .ULINT (.bignum n))
        rw [hdec]
        show some (IecValue.bignum (((n % ((256 ^ 8 : Nat) : Int)).toNat : Nat) : Int)) =
          some (canonValue .ULINT (.bignum n))
        rw [hcast]
        rfl
      all_goals exact (nomatch h)
  | .LWORD, v, h => by
      cases v
      case bignum n =>
        have hb : 0 ≤ n ∧ n ≤ 2 ^ 64 - 1 := by simpa [validValue] using h
        obtain ⟨henc, hlen, hdec, hcast⟩ := bigUCodec_roundtrip n hb.1 hb.2
        refine ⟨_, henc, hlen, ?_⟩
        show (readUIntLE 8 (natToBytesLE 8 (n % (256 ^ 8 : Nat)).toNat)).map
            (fun m => IecValue.bignum m) = some (canonValue .LWORD (.bignum n))
        rw [hdec]
        show some (IecValue.bignum (((n % ((256 ^ 8 : Nat) : Int)).toNat : Nat) : Int)) =
          some (canonValue .LWORD (.bignum n))
        rw [hcast]
        rfl
      all_goals exact (nomatch h)
  | .LINT, v, h => by
      cases v
      case bignum n =>
        have hb : -(2 ^ 63) ≤ n ∧ n ≤ 2 ^ 63 - 1 := by simpa [validValue] using h
        obtain ⟨henc, hlen, hdec, heq⟩ := bigSCodec_roundtrip n hb.1 hb.2
        refine ⟨_, henc, hlen, ?_⟩
        simp only [convertFromBuffer]
        rw [hdec]
        show some (IecValue.bignum (if 256 ^ 8 / 2 ≤ (n % ((256 ^ 8 : Nat) : Int)).toNat
            then (((n % ((256 ^ 8 : Nat) : Int)).toNat : Nat) : Int) - 256 ^ 8
            else (((n % ((256 ^ 8 : Nat) : Int)).toNat : Nat) : Int))) =
          some (canonValue .LINT (.bignum n))
        rw [heq]
        rfl
      all_goals exact (nomatch h)
  | .STRING len, v, h => by
      cases v
      case str s =>
        simp only [validValue, Bool.and_eq_true, decide_eq_true_eq] at h
        obtain ⟨hslen, hchars⟩ := h
        have hblen : (cp1252Bytes s).length = s.data.length := by simp [cp1252Bytes]
        have hle : (cp1252Bytes s).length ≤ (zerosBuf (len + 1)).length := by
          rw [hblen, zerosBuf_length]
          omega
        refine ⟨copyInto (zerosBuf (len + 1)) 0 (cp1252Bytes s), rfl, ?_, ?_⟩
        · rw [copyInto_length, zerosBuf_length]
          rfl
        · rw [show convertFromBuffer (.STRING len) (copyInto (zerosBuf (len + 1)) 0 (cp1252Bytes s)) =
              some (.str (trimPlcString
                (cp1252Str (copyInto (zerosBuf (len + 1)) 0 (cp1252Bytes s))))) from rfl,
            copyInto_zero_append _ _ hle,
            show (zerosBuf (len + 1)).drop (cp1252Bytes s).length =
              zerosBuf (len + 1 - (cp1252Bytes s).length) from by
                simp [zerosBuf, List.drop_replicate],
            cp1252_decode_append s hchars, trimPlcString_data, trim_append_zeros]
          rfl
      all_goals exact (nomatch h)
  | .WSTRING len, v, h => by
      cases v
      case str s =>
        simp only [validValue, Bool.and_eq_true, decide_eq_true_eq] at h
        obtain ⟨hslen, hchars⟩ := h
        have hblen : (ucs2Bytes s.data).length = 2 * s.data.length := ucs2Bytes_length s.data
        have hle : (ucs2Bytes s.data).length ≤ (zerosBuf (len * 2 + 2)).length := by
          rw [hblen, zerosBuf_length]
          omega
        refine ⟨copyInto (zerosBuf (len * 2 + 2)) 0 (ucs2Bytes s.data), rfl, ?_, ?_⟩
        · rw [copyInto_length, zerosBuf_length]
          rfl
        · rw [show convertFromBuffer (.WSTRING len)
                (copyInto (zerosBuf (len * 2 + 2)) 0 (ucs2Bytes s.data)) =
              some (.str (trimPlcString
                ⟨ucs2Chars (copyInto (zerosBuf (len * 2 + 2)) 0 (ucs2Bytes s.data))⟩)) from rfl,
            copyInto_zero_append _ _ hle,
            show (zerosBuf (len * 2 + 2)).drop (ucs2Bytes s.data).length =
              zerosBuf (len * 2 + 2 - (ucs2Bytes s.data).length) from by
                simp [zerosBuf, List.drop_replicate],
            ucs2_decode_append s.data hchars,
            show (zerosBuf (len * 2 + 2 - (ucs2Bytes s.data).length) : List Nat) =
              List.replicate (len * 2 + 2 - (ucs2Bytes s.data).length) 0 from rfl,
            ucs2Chars_zeros, trimPlcString_data, trim_append_zeros]
          rfl
      all_goals exact (nomatch h)
  | .STRUCT cs, v, h => by
      cases v
      case obj fs =>
        simp only [validValue, Bool.and_eq_true, decide_eq_true_eq] at h
        obtain ⟨hnd, hfs⟩ := h
        obtain ⟨encs, hencs, hflat, hdec⟩ := structRt cs fs hnd hfs
        have hSL : byteLength (.STRUCT cs) = specSumLen cs := byteLength_spec (.STRUCT cs)
        refine ⟨encs.flatten, ?_, ?_, ?_⟩
        · show structEnc cs (.obj fs) (zerosBuf (byteLength (.STRUCT cs))) 0 = some encs.flatten
          rw [structEnc_eq_flatten, hencs]
          simp only [Option.map_some']
          rw [copyInto_zero_full _ _ (by rw [zerosBuf_length]; omega)]
        · omega
        · show (structDec cs encs.flatten 0).map IecValue.obj =
            some (canonValue (.STRUCT cs) (.obj fs))
          have h0 := hdec []
          simp only [List.nil_append, List.length_nil] at h0
          rw [h0]
          rfl
      all_goals exact (nomatch h)
  | .UNION _, _, h => nomatch h
  | .ARRAY dt dims, v, h => by
      obtain ⟨E, l, hElen, hcanon, henc, hdec⟩ := arrRt dt dims v h
      have hAL : byteLength (.ARRAY dt dims) = totalSize dims * byteLength dt := rfl
      have hEle : E.length ≤ byteLength (.ARRAY dt dims) := by
        rw [hElen, hAL, totalSize_eq_prod]
        exact Nat.mul_le_mul_right _ (countElems_le_prod_valid (validValue dt) dims v h)
      have htr : truthy v = true := validArr_truthy (validValue dt) dims v h
      refine ⟨copyInto (zerosBuf (byteLength (.ARRAY dt dims))) 0 E, ?_, ?_, ?_⟩
      · simp only [convertToBuffer]
        rw [if_neg (by simp [htr]), henc (zerosBuf (byteLength (.ARRAY dt dims))) 0]
        rfl
      · rw [copyInto_length, zerosBuf_length]
      · simp only [convertFromBuffer]
        rw [copyInto_zero_append _ _ (by rw [zerosBuf_length]; exact hEle),
          show (zerosBuf (byteLength (.ARRAY dt dims))).drop E.length =
            zerosBuf (byteLength (.ARRAY dt dims) - E.length) from by
              simp [zerosBuf, List.drop_replicate]]
        have h0 := hdec [] (zerosBuf (byteLength (.ARRAY dt dims) - E.length))
        simp only [List.nil_append, List.length_nil] at h0
        rw [h0]
        simp only [Option.map_some']
        rw [show canonValue (.ARRAY dt dims) v = canonArr (canonValue dt) dims v from rfl,
          ← hcanon]
  | .ENUM defn dt, v, h => by
      cases v
      case num n =>
        simp only [validValue, Bool.and_eq_true, bne_iff_ne, ne_eq] at h
        obtain ⟨⟨hn0, hsm⟩, hdt⟩ := h
        obtain ⟨b, henc, hlen, hdec⟩ := roundtrip dt (.num n) hdt
        have htr : truthy (.num n) = true := by simp [truthy, hn0]
        refine ⟨b, ?_, hlen, ?_⟩
        · show (if ¬truthy (.num n) then some [] else convertToBuffer dt (.num n)) = some b
          rw [if_neg (by simp [htr]), henc]
        · show (convertFromBuffer dt b).map (fun value =>
              match findEnumEntryByValue defn value with
              | some e => e
              | none => .enumEntry none value) = some (canonValue (.ENUM defn dt) (.num n))
          rw [hdec, canonValue_num dt n hsm]
          simp only [Option.map_some']
          rfl
      all_goals exact (nomatch h)
termination_by t v h => sizeOf t
/-- STRUCT part of the C2 induction: the children's encodings concatenate to
exactly the struct's byte budget and decode back segment by segment. -/
theorem structRt : ∀ (cs : Children) (fs : List (String × IecValue)),
    (childNames cs).Nodup → validFields cs fs = true →
    ∃ encs, childEncs cs (.obj fs) = some encs ∧
      encs.flatten.length = specSumLen cs ∧
      ∀ (X : List Nat), structDec cs (X ++ encs.flatten) X.length = some (canonFields cs fs)
  | .nil, [], _, _ => ⟨[], rfl, rfl, fun _ => rfl⟩
  | .nil, (_, _) :: _, _, hval => nomatch hval
  | .cons _ _ _, [], _, hval => nomatch hval
  | .cons k t rest, (k1, v) :: fs, hnd, hval => by
      simp only [validFields, Bool.and_eq_true, beq_iff_eq] at hval
      obtain ⟨⟨hk1, hv⟩, hfs⟩ := hval
      subst hk1
      simp only [childNames, List.nodup_cons] at hnd
      obtain ⟨b, henc, hlen, hdec⟩ := roundtrip t v hv
      obtain ⟨encs, hencs, hflat, hdecs⟩ := structRt rest fs hnd.2 hfs
      refine ⟨b :: encs, ?_, ?_, ?_⟩
      · rw [childEncs, getFieldJS_obj_head, henc, childEncs_skip rest k1 v fs hnd.1, hencs]
        simp only [Option.pure_def, Option.bind_eq_bind, Option.some_bind]
      · simp only [List.flatten_cons, List.length_append, hlen, hflat, specSumLen]
        rw [byteLength_spec t]
      · intro X
        rw [structDec, List.flatten_cons, ← List.append_assoc]
        have hslice : sliceJS (X ++ b ++ encs.flatten) X.length (X.length + byteLength t) = b := by
          rw [← hlen]
          exact sliceJS_at X b encs.flatten
        rw [hslice, hdec]
        simp only [Option.pure_def, Option.bind_eq_bind, Option.some_bind]
        have hrec := hdecs (X ++ b)
        rw [show (X ++ b).length = X.length + byteLength t from by
          rw [List.length_append, hlen]] at hrec
        rw [hrec]
        rfl
termination_by cs fs h1 h2 => sizeOf cs
/-- ARRAY part of the C2 induction: along valid dimension walks the encoding
is a fixed segment written at the running position, and decoding any buffer
holding that segment at the same position yields the canonical elements. -/
theorem arrRt : ∀ (dt : IecType) (dims : List Nat) (v : IecValue),
    validArr (validValue dt) dims v = true →
    ∃ (E : List Nat) (l : List IecValue),
      E.length = countElems dims * byteLength dt ∧
      IecValue.arr l = canonArr (canonValue dt) dims v ∧
      (∀ (buf : List Nat) (pos : Nat),
        arrEncDim (convertToBuffer dt) dims v (buf, pos) =
          some (copyInto buf pos E, pos + E.length)) ∧
      (∀ (P R : List Nat),
        arrDecDim (convertFromBuffer dt) (byteLength dt) dims (P ++ E ++ R) P.length =
          some (l, P.length + E.length))
  | dt, [], v, hval => by
      cases v
      case arr es =>
        have hes : es = [] := by simpa [validArr, List.isEmpty_iff] using hval
        subst hes
        refine ⟨[], [], by simp [countElems], rfl, ?_, ?_⟩
        · intro buf pos
          simp [arrEncDim, copyInto_nil]
        · intro P R
          simp [arrDecDim]
      all_goals exact (nomatch hval)
  | dt, d :: rest, v, hval => by
      cases v
      case arr es =>
        simp only [validArr, Bool.and_eq_true, beq_iff_eq] at hval
        obtain ⟨hlen, hbranch⟩ := hval
        subst hlen
        cases hr : nextDimTruthy rest with
        | false =>
            rw [hr] at hbranch
            simp only [Bool.false_eq_true, if_false, Bool.and_eq_true,
              List.isEmpty_iff] at hbranch
            obtain ⟨hrest, hall⟩ := hbranch
            subst hrest
            have hexists : ∀ e ∈ es, ∃ be : List Nat × IecValue,
                convertToBuffer dt e = some be.1 ∧ be.1.length = byteLength dt ∧
                convertFromBuffer dt be.1 = some be.2 ∧ be.2 = canonValue dt e := by
              intro e he
              obtain ⟨b, h1, h2, h3⟩ := roundtrip dt e (by
                rw [List.all_eq_true] at hall
                exact hall e he)
              exact ⟨(b, canonValue dt e), h1, h2, h3, rfl⟩
            obtain ⟨bs, hbs⟩ := exists_forall2 _ es hexists
            have hf2 := forall2_flatten_length (byteLength dt)
              (forall2_map_right _ _ Prod.fst (fun a b hb => hb.2.1) hbs)
            refine ⟨(bs.map Prod.fst).flatten, bs.map Prod.snd, ?_, ?_, ?_, ?_⟩
            · rw [hf2]
              simp [countElems, nextDimTruthy]
            · have hmap : bs.map Prod.snd = es.map (canonValue dt) :=
                forall2_map_eq (canonValue dt) Prod.snd
                  (forall2_weaken _ _ (fun a b hb => hb.2.2.2) hbs)
              rw [show canonArr (canonValue dt) (es.length :: ([] : List Nat)) (.arr es) =
                  .arr (es.map (canonValue dt)) from by
                simp [canonArr, nextDimTruthy], hmap]
            · intro buf pos
              have hfa : List.Forall₂ (fun e Ee => ∀ (buf1 : List Nat) (pos1 : Nat),
                  (if nextDimTruthy ([] : List Nat) then
                      arrEncDim (convertToBuffer dt) [] e (buf1, pos1)
                    else do
                      let conv ← convertToBuffer dt e
                      pure (copyInto buf1 pos1 conv, pos1 + conv.length)) =
                    some (copyInto buf1 pos1 Ee, pos1 + Ee.length)) es (bs.map Prod.fst) := by
                refine forall2_map_right _ _ Prod.fst (fun a b hb => ?_) hbs
                intro buf1 pos1
                rw [if_neg (by simp [nextDimTruthy]), hb.1]
                simp only [Option.pure_def, Option.bind_eq_bind, Option.some_bind]
              exact arrEncLoopGen _ es (bs.map Prod.fst) hfa buf pos
            · intro P R
              have hqb : ∀ b ∈ bs, (b : List Nat × IecValue).1.length = byteLength dt ∧
                  convertFromBuffer dt b.1 = some b.2 :=
                forall2_right _ (forall2_weaken _ _ (fun a b hb => ⟨hb.2.1, hb.2.2.1⟩) hbs)
              have hfa : List.Forall₂ (fun Ee ve => ∀ (P1 R1 : List Nat) (acc : List IecValue),
                  (fun (bu : List Nat) (st : List IecValue × Nat) =>
                    if nextDimTruthy ([] : List Nat) then do
                      let (sub, p) ← arrDecDim (convertFromBuffer dt) (byteLength dt) []
                        bu st.2
                      pure (st.1 ++ [IecValue.arr sub], p)
                    else do
                      let v1 ← convertFromBuffer dt (sliceJS bu st.2 (st.2 + byteLength dt))
                      pure (st.1 ++ [v1], st.2 + byteLength dt)) (P1 ++ Ee ++ R1)
                      (acc, P1.length) =
                    some (acc ++ [ve], P1.length + Ee.length))
                  (bs.map Prod.fst) (bs.map Prod.snd) := by
                refine forall2_map_pair _ _ _ bs (fun b hb => ?_)
                obtain ⟨hbl, hbd⟩ := hqb b hb
                intro P1 R1 acc
                simp only []
                rw [if_neg (by simp [nextDimTruthy])]
                rw [show sliceJS (P1 ++ b.1 ++ R1) P1.length (P1.length + byteLength dt) =
                    b.1 from by rw [← hbl]; exact sliceJS_at P1 b.1 R1, hbd]
                simp only [Option.pure_def, Option.bind_eq_bind, Option.some_bind]
                rw [hbl]
              have hloop := arrDecLoopGen (fun (bu : List Nat) (st : List IecValue × Nat) =>
                  if nextDimTruthy ([] : List Nat) then do
                    let (sub, p) ← arrDecDim (convertFromBuffer dt) (byteLength dt) [] bu st.2
                    pure (st.1 ++ [IecValue.arr sub], p)
                  else do
                    let v1 ← convertFromBuffer dt (sliceJS bu st.2 (st.2 + byteLength dt))
                    pure (st.1 ++ [v1], st.2 + byteLength dt))
                (bs.map Prod.fst) (bs.map Prod.snd) hfa P R [] 0
              rw [show es.length = (bs.map Prod.fst).length from by
                rw [List.length_map, hbs.length_eq]]
              exact hloop.trans (by rw [List.nil_append])
        | true =>
            rw [hr] at hbranch
            simp only [if_true, Bool.and_eq_true] at hbranch
            obtain ⟨_, hall⟩ := hbranch
            have hexists : ∀ e ∈ es, ∃ be : List Nat × List IecValue,
                be.1.length = countElems rest * byteLength dt ∧
                IecValue.arr be.2 = canonArr (canonValue dt) rest e ∧
                (∀ (buf : List Nat) (pos : Nat),
                  arrEncDim (convertToBuffer dt) rest e (buf, pos) =
                    some (copyInto buf pos be.1, pos + be.1.length)) ∧
                (∀ (P R : List Nat),
                  arrDecDim (convertFromBuffer dt) (byteLength dt) rest (P ++ be.1 ++ R)
                    P.length = some (be.2, P.length + be.1.length)) := by
              intro e he
              obtain ⟨E1, l1, a1, a2, a3, a4⟩ := arrRt dt rest e (by
                rw [List.all_eq_true] at hall
                exact hall e he)
              exact ⟨(E1, l1), a1, a2, a3, a4⟩
            obtain ⟨bs, hbs⟩ := exists_forall2 _ es hexists
            have hf2 := forall2_flatten_length (countElems rest * byteLength dt)
              (forall2_map_right _ _ Prod.fst (fun a b hb => hb.1) hbs)
            refine ⟨(bs.map Prod.fst).flatten, bs.map (fun b => IecValue.arr b.2),
              ?_, ?_, ?_, ?_⟩
            · rw [hf2]
              simp only [countElems, hr, if_true]
              ring
            · have hmap : bs.map (fun b => IecValue.arr b.2) =
                  es.map (canonArr (canonValue dt) rest) :=
                forall2_map_eq (canonArr (canonValue dt) rest) (fun b => IecValue.arr b.2)
                  (forall2_weaken _ _ (fun a b hb => hb.2.1) hbs)
              rw [show canonArr (canonValue dt) (es.length :: rest) (.arr es) =
                  .arr (es.map (canonArr (canonValue dt) rest)) from by
                simp [canonArr, hr], hmap]
            · intro buf pos
              have hfa : List.Forall₂ (fun e Ee => ∀ (buf1 : List Nat) (pos1 : Nat),
                  (if nextDimTruthy rest then
                      arrEncDim (convertToBuffer dt) rest e (buf1, pos1)
                    else do
                      let conv ← convertToBuffer dt e
                      pure (copyInto buf1 pos1 conv, pos1 + conv.length)) =
                    some (copyInto buf1 pos1 Ee, pos1 + Ee.length)) es (bs.map Prod.fst) := by
                refine forall2_map_right _ _ Prod.fst (fun a b hb => ?_) hbs
                intro buf1 pos1
                rw [if_pos (by simp [hr])]
                exact hb.2.2.1 buf1 pos1
              exact arrEncLoopGen _ es (bs.map Prod.fst) hfa buf pos
            · intro P R
              have hqb : ∀ b ∈ bs, (b : List Nat × List IecValue).1.length =
                  countElems rest * byteLength dt ∧
                  (∀ (P1 R1 : List Nat),
                    arrDecDim (convertFromBuffer dt) (byteLength dt) rest (P1 ++ b.1 ++ R1)
                      P1.length = some (b.2, P1.length + b.1.length)) :=
                forall2_right _ (forall2_weaken _ _ (fun a b hb => ⟨hb.1, hb.2.2.2⟩) hbs)
              have hfa : List.Forall₂ (fun Ee ve => ∀ (P1 R1 : List Nat) (acc : List IecValue),
                  (fun (bu : List Nat) (st : List IecValue × Nat) =>
                    if nextDimTruthy rest then do
                      let (sub, p) ← arrDecDim (convertFromBuffer dt) (byteLength dt) rest
                        bu st.2
                      pure (st.1 ++ [IecValue.arr sub], p)
                    else do
                      let v1 ← convertFromBuffer dt (sliceJS bu st.2 (st.2 + byteLength dt))
                      pure (st.1 ++ [v1], st.2 + byteLength dt)) (P1 ++ Ee ++ R1)
                      (acc, P1.length) =
                    some (acc ++ [ve], P1.length + Ee.length))
                  (bs.map Prod.fst) (bs.map (fun b => IecValue.arr b.2)) := by
                refine forall2_map_pair _ _ _ bs (fun b hb => ?_)
                obtain ⟨hbl, hbd⟩ := hqb b hb
                intro P1 R1 acc
                simp only []
                rw [if_pos (by simp [hr]), hbd P1 R1]
                simp only [Option.pure_def, Option.bind_eq_bind, Option.some_bind]
              have hloop := arrDecLoopGen (fun (bu : List Nat) (st : List IecValue × Nat) =>
                  if nextDimTruthy rest then do
                    let (sub, p) ← arrDecDim (convertFromBuffer dt) (byteLength dt) rest bu st.2
                    pure (st.1 ++ [IecValue.arr sub], p)
                  else do
                    let v1 ← convertFromBuffer dt (sliceJS bu st.2 (st.2 + byteLength dt))
                    pure (st.1 ++ [v1], st.2 + byteLength dt))
                (bs.map Prod.fst) (bs.map (fun b => IecValue.arr b.2)) hfa P R [] 0
              rw [show es.length = (bs.map Prod.fst).length from by
                rw [List.length_map, hbs.length_eq]]
              exact hloop.trans (by rw [List.nil_append])
      all_goals exact (nomatch hval)
termination_by dt dims v h => sizeOf dt + sizeOf dims
end

/-- C2, counterexample: the numeric ENUM value 0 is in the backing INT's
accepted range, but `0` is falsy, so the falsy-input guard makes ENUM encode
return the empty buffer; decoding the empty buffer then fails (the backing
read of 2 bytes throws), so the round trip does not hold for every in-range
value. -/
theorem c2_enum_zero_counterexample :
    convertToBuffer (.ENUM [("a", 1)] .INT) (.num 0) = some [] ∧
    convertFromBuffer (.ENUM [("a", 1)] .INT) [] = none :=
  ⟨rfl, rfl⟩

/-- C2 (corrected): for every primitive, string, STRUCT, ARRAY and ENUM
schema and every in-range value of that schema's value type — where, beyond
the plain range conditions, an ENUM's numeric value must additionally be
nonzero (zero is falsy and encodes to an empty buffer, as the counterexample
shows) over a 1-, 2- or 4-byte integer backing as `EnumDataType` requires —
encoding succeeds with a buffer of exactly the declared byte length and
decoding that buffer returns the value's canonical form: strings trimmed at
the first zero character, enum values re-wrapped as the first declared entry
of that numeric value (or an undefined name). -/
theorem c2_roundtrip (t : IecType) (v : IecValue) (h : validValue t v = true) :
    ∃ b, convertToBuffer t v = some b ∧ b.length = byteLength t ∧
      convertFromBuffer t b = some (canonValue t v) :=
  roundtrip t v h

theorem c2_roundtrip_witness :
    validValue
      (.STRUCT (.cons "i" .INT (.cons "s" (.STRING 3)
        (.cons "a" (.ARRAY .SINT [2]) (.cons "e" (.ENUM [("x", 5)] .INT) .nil)))))
      (.obj [("i", .num (-2)), ("s", .str "hi"),
        ("a", .arr [.num 7, .num (-1)]), ("e", .num 5)]) = true ∧
    (∃ b, convertToBuffer
        (.STRUCT (.cons "i" .INT (.cons "s" (.STRING 3)
          (.cons "a" (.ARRAY .SINT [2]) (.cons "e" (.ENUM [("x", 5)] .INT) .nil)))))
        (.obj [("i", .num (-2)), ("s", .str "hi"),
          ("a", .arr [.num 7, .num (-1)]), ("e", .num 5)]) = some b ∧
      b.length = byteLength
        (.STRUCT (.cons "i" .INT (.cons "s" (.STRING 3)
          (.cons "a" (.ARRAY .SINT [2]) (.cons "e" (.ENUM [("x", 5)] .INT) .nil))))) ∧
      convertFromBuffer
        (.STRUCT (.cons "i" .INT (.cons "s" (.STRING 3)
          (.cons "a" (.ARRAY .SINT [2]) (.cons "e" (.ENUM [("x", 5)] .INT) .nil))))) b =
        some (canonValue
          (.STRUCT (.cons "i" .INT (.cons "s" (.STRING 3)
            (.cons "a" (.ARRAY .SINT [2]) (.cons "e" (.ENUM [("x", 5)] .INT) .nil)))))
          (.obj [("i", .num (-2)), ("s", .str "hi"),
            ("a", .arr [.num 7, .num (-1)]), ("e", .num 5)]))) :=
  ⟨rfl, c2_roundtrip
    (.STRUCT (.cons "i" .INT (.cons "s" (.STRING 3)
      (.cons "a" (.ARRAY .SINT [2]) (.cons "e" (.ENUM [("x", 5)] .INT) .nil)))))
    (.obj [("i", .num (-2)), ("s", .str "hi"),
      ("a", .arr [.num 7, .num (-1)]), ("e", .num 5)]) rfl⟩
